import Mathlib

/-!
 # Verification of the queue server (`queue_server_v2.py`)

This file gives a shallow embedding of the single-queue, single-worker
request broker in `src/queue_server_v2.py` and proves/refutes the frozen
claims about it.

Modelling conventions:
* `asyncio` cooperative scheduling is modelled as a small-step transition
  system: one step is a block of Python code between two suspension points
  (`await` on a genuinely suspending primitive, or a `yield` of an async
  generator).  `asyncio.Queue.put`/`get` on an unbounded, non-empty queue
  do not yield to the event loop, so the worker's bookkeeping blocks that
  follow such calls belong to the same atomic step.
* request identifiers (`uuid.uuid4()` in the source) are modelled as the
  naturals produced by a fresh counter `next_id`; the only property the
  source relies on is uniqueness.
* timestamps (`datetime.now().isoformat()`) are modelled by a logical
  clock that ticks once per step.
* the downstream LLM (LM Studio behind `AsyncOpenAI`) is the environment:
  each admitted request carries a script of upstream chunks and an ending
  (successful end of stream, or an exception carrying a message).
* Python dictionaries (`status_tracker`, `stream_chunks`) are association
  lists.  `stream_chunks` is split into `streamKeys` (the set of keys
  currently in the dict) and `relayBufs` (the underlying
  `asyncio.Queue` objects, which survive `del stream_chunks[id]` while a
  handler still holds a reference to them).
-/

namespace QSrv

/-- Association-list lookup (model of Python dict access). -/
def alook {α : Type} (m : List (Nat × α)) (k : Nat) : Option α :=
  match m with
  | [] => none
  | p :: r => if p.1 = k then some p.2 else alook r k

/-- Association-list insert/replace (model of Python dict assignment). -/
def aset {α : Type} (m : List (Nat × α)) (k : Nat) (v : α) : List (Nat × α) :=
  match m with
  | [] => [(k, v)]
  | p :: r => if p.1 = k then (k, v) :: r else p :: aset r k v

/-- Point-wise modification of the value stored at key `k` (model of mutating
an object reached through a dict lookup); no-op when the key is absent. -/
def amod {α : Type} (m : List (Nat × α)) (k : Nat) (f : α → α) : List (Nat × α) :=
  m.map (fun p => if p.1 = k then (k, f p.2) else p)

/-- Lifecycle state of a request (`RequestStatus.status` in the source:
"queued" | "processing" | "complete" | "error"). -/
inductive LState : Type
  | queued
  | processing
  | complete
  | error
deriving DecidableEq, Repr

/-- Model of `RequestStatus` (source lines 74–83). -/
structure RequestStatus : Type where
  status : LState
  client_id : String
  created_at : Nat
  started_at : Option Nat := none
  completed_at : Option Nat := none
  result : Option String := none
  error : Option String := none
  queue_entered_position : Option Nat := none
deriving DecidableEq, Repr

/-- One upstream streaming chunk: `chunk.choices` with each delta's
`content` field (`None` or a string). -/
structure UpChunk : Type where
  choices : List (Option String)
deriving DecidableEq, Repr

/-- The text fragment a chunk contributes, if any.  Source line 186:
`if chunk.choices and chunk.choices[0].delta.content:` — Python truthiness
skips an empty choice list, a `None` content and an empty string. -/
def fragOf (c : UpChunk) : Option String :=
  match c.choices with
  | [] => none
  | d :: _ =>
    match d with
    | none => none
    | some t => if t = "" then none else some t

/-- An element of a fragment-relay channel (`stream_chunks[id]`): a text
fragment, the `None` end-of-stream marker, or the `{"error": msg}` dict. -/
inductive Chunk : Type
  | frag (s : String)
  | done
  | errMark (msg : String)
deriving DecidableEq, Repr

/-- An item of `request_queue` (source lines 262–266), together with the
environment's script for the downstream call: the chunks the LLM will
stream and `ending` (`none` = normal end of stream, `some msg` = the
completion call raises an exception with message `msg`). -/
structure QueueItem : Type where
  request_id : Nat
  client_id : String
  chunks : List UpChunk
  ending : Option String
deriving DecidableEq, Repr

/-- Model of `queue_stats` (source lines 114–119). -/
structure QueueStats : Type where
  total_received : Nat
  total_processed : Nat
  total_errors : Nat
  current_request_id : Option Nat
deriving DecidableEq, Repr

/-- Control position of the single background worker (`queue_worker`,
source lines 133–222), between suspension points. -/
inductive WPhase : Type
  | idle
  | calling (id : Nat) (chunks : List UpChunk) (ending : Option String)
  | streaming (id : Nat) (acc : String) (pending : List UpChunk) (ending : Option String)
deriving DecidableEq, Repr

/-- Events yielded by a streaming handler.  Variant A is
`event_generator` (source lines 306–336), variant B is
`openai_stream_generator` (source lines 388–467). -/
inductive HEvent : Type
  | enteredComment (n : Option Nat)
  | positionA (n : Nat)
  | commentB (n : Nat)
  | chunkE (s : String)
  | doneA
  | finishB
  | doneSentinel
  | errE (m : Option String)
deriving DecidableEq, Repr

/-- Control position of one streaming handler between suspension points. -/
inductive HPhase : Type
  | pollQueued
  | waitRelay
  | drain
  | cleanup
  | hdone
deriving DecidableEq, Repr

/-- One streaming handler invocation attached to request `reqId`;
`variantB = true` for `/v1/chat/completions` streaming,
`false` for `/stream/{id}`.  `lastPos` is `last_position`
(source line 399, variant B only); `events` is the event stream
yielded so far. -/
structure HandlerSt : Type where
  reqId : Nat
  variantB : Bool
  lastPos : Option Nat
  phase : HPhase
  events : List HEvent
deriving DecidableEq, Repr

/-- The whole process state. -/
structure ServerState : Type where
  request_queue : List QueueItem
  status_tracker : List (Nat × RequestStatus)
  relayBufs : List (Nat × List Chunk)
  streamKeys : List Nat
  queue_stats : QueueStats
  wphase : WPhase
  handlers : List HandlerSt
  next_id : Nat
  clock : Nat
deriving DecidableEq, Repr

/-- Model of `QueueResponse` (source lines 67–71). -/
structure QueueResponse : Type where
  status : String
  request_id : Nat
  queue_position : Nat
deriving DecidableEq, Repr

/-- Model of `add_to_queue` (source lines 249–275): generate an identifier, compute
`queue_position = request_queue.qsize() + 1`, insert a `RequestStatus` in
state "queued", enqueue the item, increment `total_received` and return.
The same code is inlined in `openai_chat_completions`
(source lines 366–383) with `client_id = "openai_compat"`.
`chunks`/`ending` are the environment's script for the downstream call. -/
def addToQueue (s : ServerState) (client : String) (chunks : List UpChunk)
    (ending : Option String) : QueueResponse × ServerState :=
  let request_id := s.next_id
  let queue_position := s.request_queue.length + 1
  let rec' : RequestStatus :=
    { status := .queued,
      client_id := client,
      created_at := s.clock,
      queue_entered_position := some queue_position }
  let item : QueueItem :=
    { request_id := request_id, client_id := client, chunks := chunks, ending := ending }
  ( { status := "queued", request_id := request_id, queue_position := queue_position }
  , { s with
      status_tracker := aset s.status_tracker request_id rec',
      request_queue := s.request_queue ++ [item],
      queue_stats := { s.queue_stats with total_received := s.queue_stats.total_received + 1 },
      next_id := s.next_id + 1,
      clock := s.clock + 1 } )

/-- Step labels of the transition system: admissions, the worker's atomic
blocks, handler creation and the handlers' atomic blocks. -/
inductive Step : Type
  | admitReq (client : String) (chunks : List UpChunk) (ending : Option String)
  | wDequeue
  | wStream
  | wPublish
  | wFinishOk
  | wFinishErr
  | hStart (reqId : Nat) (variantB : Bool)
  | hPoll (hid : Nat)
  | hExit (hid : Nat)
  | hEnter (hid : Nat)
  | hGet (hid : Nat)
  | hClean (hid : Nat)
deriving DecidableEq, Repr

/-- Replace handler number `hid`. -/
def setHandler (hs : List HandlerSt) (hid : Nat) (h : HandlerSt) : List HandlerSt :=
  hs.set hid h

/-- The transition function.  `none` means the step is not enabled in `s`
(its guard fails, e.g. the worker is not at that control point or the
awaited condition does not hold yet). -/
def step (s : ServerState) : Step → Option ServerState
  | .admitReq client chunks ending =>
    -- `add_to_queue` / the admission part of `openai_chat_completions`.
    some (addToQueue s client chunks ending).2
  | .wDequeue =>
    -- Source lines 140–155: `await wait_for(request_queue.get(), 1.0)`
    -- resumes, then (same atomic block) the status record is switched to
    -- "processing", `started_at` is recorded, `current_request_id` is set
    -- and `stream_chunks[request_id] = asyncio.Queue()` is created.
    match s.wphase with
    | .idle =>
      match s.request_queue with
      | [] => none
      | it :: rest =>
        some { s with
          request_queue := rest,
          status_tracker := amod s.status_tracker it.request_id
            (fun r => { r with status := .processing, started_at := some s.clock }),
          queue_stats := { s.queue_stats with current_request_id := some it.request_id },
          streamKeys := it.request_id :: s.streamKeys,
          relayBufs := aset s.relayBufs it.request_id [],
          wphase := .calling it.request_id it.chunks it.ending,
          clock := s.clock + 1 }
    | _ => none
  | .wStream =>
    -- Source line 181: `await llm_client.chat.completions.create(...)`
    -- resolves; the worker starts iterating with `full_response = ""`.
    match s.wphase with
    | .calling id chunks ending => some { s with wphase := .streaming id "" chunks ending, clock := s.clock + 1 }
    | _ => none
  | .wPublish =>
    -- Source lines 185–189: receive one upstream chunk; if it carries
    -- truthy content, append it to `full_response` and
    -- `await stream_chunks[request_id].put(content)`.
    match s.wphase with
    | .streaming id acc pending ending =>
      match pending with
      | [] => none
      | c :: rest =>
        match fragOf c with
        | some t =>
          some { s with
            relayBufs := amod s.relayBufs id (fun b => b ++ [.frag t]),
            wphase := .streaming id (acc ++ t) rest ending,
            clock := s.clock + 1 }
        | none => some { s with wphase := .streaming id acc rest ending, clock := s.clock + 1 }
    | _ => none
  | .wFinishOk =>
    -- Source lines 191–198: the upstream stream ends normally:
    -- `put(None)`, status "complete", `completed_at`, `result`,
    -- `total_processed += 1`, `current_request_id = None`.
    match s.wphase with
    | .streaming id acc pending ending =>
      match pending, ending with
      | [], none =>
        some { s with
          relayBufs := amod s.relayBufs id (fun b => b ++ [.done]),
          status_tracker := amod s.status_tracker id
            (fun r => { r with status := .complete, completed_at := some s.clock, result := some acc }),
          queue_stats := { s.queue_stats with
            total_processed := s.queue_stats.total_processed + 1,
            current_request_id := none },
          wphase := .idle,
          clock := s.clock + 1 }
      | _, _ => none
    | _ => none
  | .wFinishErr =>
    -- Source lines 202–216: the completion call raised: if the relay is
    -- still in `stream_chunks`, put `{"error": msg}` (failures to publish
    -- are swallowed); status "error", `completed_at`, `error`,
    -- `total_errors += 1`, `current_request_id = None`; the loop continues.
    match s.wphase with
    | .streaming id _acc pending ending =>
      match pending, ending with
      | [], some msg =>
        some { s with
          relayBufs :=
            if id ∈ s.streamKeys then amod s.relayBufs id (fun b => b ++ [.errMark msg])
            else s.relayBufs,
          status_tracker := amod s.status_tracker id
            (fun r => { r with status := .error, completed_at := some s.clock, error := some msg }),
          queue_stats := { s.queue_stats with
            total_errors := s.queue_stats.total_errors + 1,
            current_request_id := none },
          wphase := .idle,
          clock := s.clock + 1 }
      | _, _ => none
    | _ => none
  | .hStart reqId variantB =>
    -- A caller opens `/stream/{id}` (variant A) or streaming
    -- `/v1/chat/completions` (variant B) for a known identifier; the
    -- generator starts.  Variant B first yields
    -- `: queue_entered={pos}` (source lines 395–396).
    match alook s.status_tracker reqId with
    | some r =>
      some { s with
        handlers := s.handlers ++
          [{ reqId := reqId, variantB := variantB, lastPos := none, phase := .pollQueued,
             events := if variantB then [.enteredComment r.queue_entered_position] else [] }],
        clock := s.clock + 1 }
    | none => none
  | .hPoll hid =>
    -- One iteration of the "while status == queued" poll loop.
    -- Variant A (source lines 309–312) yields `{'position': qsize}`
    -- unconditionally; variant B (source lines 400–406) yields
    -- `: queue_position={qsize}` only when it differs from `last_position`.
    match s.handlers.get? hid with
    | some h =>
      match h.phase with
      | .pollQueued =>
        match alook s.status_tracker h.reqId with
        | none => none
        | some r =>
          if r.status = .queued then
            let cur := s.request_queue.length
            if h.variantB then
              if some cur ≠ h.lastPos then
                some { s with
                  handlers := setHandler s.handlers hid
                    { h with lastPos := some cur, events := h.events ++ [.commentB cur] },
                  clock := s.clock + 1 }
              else some { s with clock := s.clock + 1 }
            else
              some { s with
                handlers := setHandler s.handlers hid { h with events := h.events ++ [.positionA cur] },
                clock := s.clock + 1 }
          else none
      | _ => none
    | none => none
  | .hExit hid =>
    -- The poll loop observes a status other than "queued" and exits.
    -- Variant B yields `: queue_position=0` (source line 409).  Both
    -- variants then check for "error": variant A yields
    -- `{'error': status.error}` and returns (source lines 314–316),
    -- variant B yields an error object with `error or "Unknown error"`
    -- and returns (source lines 412–418).  Otherwise the handler falls
    -- through to the wait-for-relay loop.
    match s.handlers.get? hid with
    | some h =>
      match h.phase with
      | .pollQueued =>
        match alook s.status_tracker h.reqId with
        | none => none
        | some r =>
          if r.status = .queued then none
          else
            let pre := if h.variantB then [HEvent.commentB 0] else []
            if r.status = .error then
              some { s with
                handlers := setHandler s.handlers hid
                  { h with
                    phase := .hdone,
                    events := h.events ++ pre ++
                      [.errE (if h.variantB then some (r.error.getD "Unknown error") else r.error)] },
                clock := s.clock + 1 }
            else
              some { s with
                handlers := setHandler s.handlers hid { h with phase := .waitRelay, events := h.events ++ pre },
                clock := s.clock + 1 }
      | _ => none
    | none => none
  | .hEnter hid =>
    -- `while request_id not in stream_chunks: await sleep(...)` ends:
    -- the identifier is a key of `stream_chunks`, the handler captures
    -- `chunk_queue = stream_chunks[request_id]` and enters the drain loop
    -- (source lines 318–321 / 421–424).
    match s.handlers.get? hid with
    | some h =>
      match h.phase with
      | .waitRelay =>
        if h.reqId ∈ s.streamKeys then
          some { s with
            handlers := setHandler s.handlers hid { h with phase := .drain },
            clock := s.clock + 1 }
        else none
      | _ => none
    | none => none
  | .hGet hid =>
    -- `chunk = await chunk_queue.get()` returns one element (source lines
    -- 323–333 / 426–464).  A text fragment is yielded as a chunk event and
    -- the loop continues; `None` yields the terminal done/finish events and
    -- breaks; an error dict yields a terminal error event and breaks.
    match s.handlers.get? hid with
    | some h =>
      match h.phase with
      | .drain =>
        match alook s.relayBufs h.reqId with
        | some (c :: rest) =>
          let s1 := { s with relayBufs := aset s.relayBufs h.reqId rest }
          match c with
          | .frag t =>
            some { s1 with
              handlers := setHandler s.handlers hid { h with events := h.events ++ [.chunkE t] },
              clock := s.clock + 1 }
          | .done =>
            some { s1 with
              handlers := setHandler s.handlers hid
                { h with
                  phase := .cleanup,
                  events := h.events ++ (if h.variantB then [.finishB, .doneSentinel] else [.doneA]) },
              clock := s.clock + 1 }
          | .errMark m =>
            some { s1 with
              handlers := setHandler s.handlers hid
                { h with phase := .cleanup, events := h.events ++ [.errE (some m)] },
              clock := s.clock + 1 }
        | _ => none
      | _ => none
    | none => none
  | .hClean hid =>
    -- `if request_id in stream_chunks: del stream_chunks[request_id]`
    -- (source lines 335–336 / 466–467); the generator then ends.
    match s.handlers.get? hid with
    | some h =>
      match h.phase with
      | .cleanup =>
        some { s with
          streamKeys := s.streamKeys.erase h.reqId,
          handlers := setHandler s.handlers hid { h with phase := .hdone },
          clock := s.clock + 1 }
      | _ => none
    | none => none

/-- Run a list of steps; `none` as soon as a step is not enabled. -/
def runSteps (s : ServerState) : List Step → Option ServerState
  | [] => some s
  | st :: l =>
    match step s st with
    | some s1 => runSteps s1 l
    | none => none

/-- The state at server startup: empty queue, empty trackers, zeroed
stats, worker idle. -/
def initState : ServerState :=
  { request_queue := [],
    status_tracker := [],
    relayBufs := [],
    streamKeys := [],
    queue_stats := { total_received := 0, total_processed := 0, total_errors := 0, current_request_id := none },
    wphase := .idle,
    handlers := [],
    next_id := 0,
    clock := 0 }

/-!
 ## Pure models of individual code paths
-/

/-- The worker's per-request streaming loop (source lines 183–195), as a
pure function of the upstream chunk sequence: starting from
`full_response = acc` and an already-published relay buffer `buf`, iterate
the chunks; each truthy content is appended to `full_response` and
published to the relay; at end of stream `None` is published.  Returns
the final `full_response` (stored as the record's `result`) and the full
sequence the relay received. -/
def workerGo (acc : String) (buf : List Chunk) : List UpChunk → String × List Chunk
  | [] => (acc, buf ++ [.done])
  | c :: rest =>
    match fragOf c with
    | some t => workerGo (acc ++ t) (buf ++ [.frag t]) rest
    | none => workerGo acc buf rest

/-- Successful processing of one request from the start of iteration. -/
def workerProcess (chunks : List UpChunk) : String × List Chunk :=
  workerGo "" [] chunks

/-- The texts of the fragment elements of a relay sequence. -/
def fragTexts (l : List Chunk) : List String :=
  l.filterMap (fun c => match c with | .frag s => some s | _ => none)

/-- The drain loop of `event_generator` (source lines 323–333) as a pure
function of the sequence of relay elements a sole draining caller
receives: one chunk event per fragment, then exactly one terminal event
(`{'done': true}` or `{'error': msg}`) at which the loop breaks. -/
def drainEvents : List Chunk → List HEvent
  | [] => []
  | .frag t :: rest => .chunkE t :: drainEvents rest
  | .done :: _ => [.doneA]
  | .errMark m :: _ => [.errE (some m)]

/-- The texts of the chunk events of an event sequence. -/
def chunkTexts (l : List HEvent) : List String :=
  l.filterMap (fun e => match e with | .chunkE s => some s | _ => none)

/-- Terminal events of a stream: done/finish/sentinel/error. -/
def isTerminalEvent : HEvent → Bool
  | .doneA => true
  | .finishB => true
  | .doneSentinel => true
  | .errE _ => true
  | _ => false

/-- One observation made by a position-poll loop: the request's lifecycle
state and `request_queue.qsize()` at that instant. -/
structure PollObs : Type where
  st : LState
  depth : Nat
deriving DecidableEq, Repr

/-- The position events produced by the queued-phase loop of
`event_generator` (source lines 309–312): while the status is "queued",
every iteration yields `{'position': qsize}` — unconditionally. -/
def eventGenPositions : List PollObs → List Nat
  | [] => []
  | o :: rest => if o.st = .queued then o.depth :: eventGenPositions rest else []

/-- The position comments produced by the queued-phase loop of
`openai_stream_generator` (source lines 399–406): while the status is
"queued", yield `: queue_position={qsize}` only when the sampled depth
differs from `last_position`, which starts as `None`. -/
def openaiPositions (last : Option Nat) : List PollObs → List Nat
  | [] => []
  | o :: rest =>
    if o.st = .queued then
      if some o.depth ≠ last then o.depth :: openaiPositions (some o.depth) rest
      else openaiPositions last rest
    else []

/-- What the non-streaming branch of `openai_chat_completions` sees of a
status record at one poll: its lifecycle state, result and error. -/
structure StatusView : Type where
  st : LState
  result : Option String
  error : Option String
deriving DecidableEq, Repr

/-- Result of a non-streaming `/v1/chat/completions` call. -/
inductive ChatResult : Type
  | timeoutErr
  | serverErr (msg : String)
  | completion (content : Option String)
deriving DecidableEq, Repr

/-- Whether the record is still in flight (`status in ("queued", "processing")`). -/
def inFlight (v : StatusView) : Bool :=
  v.st = .queued || v.st = .processing

/-- Assembly of the final response object (source lines 485–501). -/
def assembleChat (v : StatusView) : ChatResult :=
  if v.st = .error then .serverErr (v.error.getD "Unknown error")
  else .completion v.result

/-- The non-streaming poll loop of `openai_chat_completions` (source lines
477–483): poll every 0.1 s while the record is queued/processing; if the
elapsed time exceeds 300 s, return a timeout error object.  `f k` is the
record as sampled at the k-th poll; elapsed time at the k-th poll is
`k` tenths of a second, so the timeout check `elapsed > 300` first
succeeds at `k = 3001`, i.e. when `rem = 0` below. -/
def pollChatAux (f : Nat → StatusView) : Nat → Nat → ChatResult
  | rem, k =>
    if inFlight (f k) then
      match rem with
      | 0 => .timeoutErr
      | r + 1 => pollChatAux f r (k + 1)
    else assembleChat (f k)

/-- The whole non-streaming branch: poll from `k = 0` with the 300 s
budget (3001 further polls at 0.1 s each). -/
def openaiNonStreaming (f : Nat → StatusView) : ChatResult :=
  pollChatAux f 3001 0

/-!
 ## The admission endpoint's request validation

`/queue/add` takes a JSON body validated against the pydantic model
`QueueRequest` (source lines 46–64): `client_id : str`, `messages :
list[dict]` and `model : str` are required; every other field is optional
with a default.  FastAPI rejects the request with a 422 validation error
before `add_to_queue` runs when validation fails; otherwise the handler
body runs.  The model below checks exactly the three required fields
(absent optional fields cannot cause a rejection since they all carry
defaults; pydantic's lax type coercion for present-but-oddly-typed
optional fields is not modelled and no theorem relies on it).
-/

/-- A JSON value. -/
inductive JVal : Type
  | jstr (s : String)
  | jnum (n : Int)
  | jbool (b : Bool)
  | jnull
  | jarr (xs : List JVal)
  | jobj (fields : List (String × JVal))

/-- Field lookup in a JSON object. -/
def jget (j : JVal) (k : String) : Option JVal :=
  match j with
  | .jobj fields => (fields.find? (fun p => p.1 = k)).map (fun p => p.2)
  | _ => none

/-- Is this JSON value an object (a Python `dict`)? -/
def isObj : JVal → Bool
  | .jobj _ => true
  | _ => false

/-- The validated data the handler needs. -/
structure ParsedQueueRequest : Type where
  client_id : String
  messages : List JVal
  model : String

/-- Validation of the `QueueRequest` body: the three required fields must
be present with the declared shapes (`client_id : str`,
`messages : list[dict]` — a list of any length, including zero, whose
elements are objects of any shape — and `model : str`). -/
def validateQueueRequest (body : JVal) : Option ParsedQueueRequest :=
  match jget body "client_id", jget body "messages", jget body "model" with
  | some (.jstr c), some (.jarr ms), some (.jstr m) =>
    if ms.all isObj then some { client_id := c, messages := ms, model := m }
    else none
  | _, _, _ => none

/-- The `/queue/add` endpoint including FastAPI's validation gate: a body
failing validation is rejected synchronously and the handler never runs;
otherwise `add_to_queue` runs.  `chunks`/`ending` are the environment's
script for the eventual downstream call. -/
def addToQueueEndpoint (s : ServerState) (body : JVal) (chunks : List UpChunk)
    (ending : Option String) : Except String QueueResponse × ServerState :=
  match validateQueueRequest body with
  | none => (.error "validation error", s)
  | some req => let (resp, s1) := addToQueue s req.client_id chunks ending
                (.ok resp, s1)

/-!
 ## Association-list lemmas
-/

theorem alook_aset_self {α : Type} (m : List (Nat × α)) (k : Nat) (v : α) :
    alook (aset m k v) k = some v := by
  induction m with
  | nil => simp [aset, alook]
  | cons p r ih =>
    by_cases hp : p.1 = k
    · simp [aset, hp, alook]
    · simp [aset, hp, alook, ih]

theorem alook_aset_ne {α : Type} (m : List (Nat × α)) (k k2 : Nat) (v : α) (h : k2 ≠ k) :
    alook (aset m k v) k2 = alook m k2 := by
  have hk : ¬ k = k2 := fun hh => h hh.symm
  induction m with
  | nil => simp [aset, alook, hk]
  | cons p r ih =>
    by_cases hp : p.1 = k
    · subst hp
      simp [aset, alook, hk]
    · simp [aset, hp, alook, ih]

theorem alook_amod_self {α : Type} (m : List (Nat × α)) (k : Nat) (f : α → α) :
    alook (amod m k f) k = (alook m k).map f := by
  induction m with
  | nil => simp [amod, alook]
  | cons p r ih =>
    by_cases hp : p.1 = k
    · simp [amod, hp, alook]
    · simpa [amod, hp, alook] using ih

theorem alook_amod_ne {α : Type} (m : List (Nat × α)) (k k2 : Nat) (f : α → α) (h : k2 ≠ k) :
    alook (amod m k f) k2 = alook m k2 := by
  have hk : ¬ k = k2 := fun hh => h hh.symm
  induction m with
  | nil => simp [amod, alook]
  | cons p r ih =>
    by_cases hp : p.1 = k
    · subst hp
      simpa [amod, alook, hk] using ih
    · by_cases hp2 : p.1 = k2
      · simp [amod, hp, alook, hp2, h]
      · simpa [amod, hp, alook, hp2] using ih

/-!
 ## Claims about admission (C8) and the worker's error path (C4)
-/

/-- C8: on every successful admission, the returned queue position is the
queue depth just before insertion plus one, the same value is stored in the
new Status Record's `queue_entered_position`, and admitting three requests
back-to-back with no dequeue in between returns positions 1, 2, 3. -/
theorem C8_admission_position (s : ServerState) (c c2 c3 : String)
    (ch ch2 ch3 : List UpChunk) (e e2 e3 : Option String) :
    ((addToQueue s c ch e).1.queue_position = s.request_queue.length + 1
      ∧ alook (addToQueue s c ch e).2.status_tracker (addToQueue s c ch e).1.request_id =
          some { status := .queued, client_id := c, created_at := s.clock,
                 queue_entered_position := some (s.request_queue.length + 1) })
    ∧ (s.request_queue = [] →
        (addToQueue s c ch e).1.queue_position = 1
        ∧ (addToQueue (addToQueue s c ch e).2 c2 ch2 e2).1.queue_position = 2
        ∧ (addToQueue (addToQueue (addToQueue s c ch e).2 c2 ch2 e2).2 c3 ch3 e3).1.queue_position = 3) := by
  refine ⟨⟨rfl, ?_⟩, fun hq => ⟨?_, ?_, ?_⟩⟩
  · simpa [addToQueue] using alook_aset_self s.status_tracker s.next_id _
  · simp [addToQueue, hq]
  · simp [addToQueue, hq]
  · simp [addToQueue, hq]

/-- Witness for C8 at the initial state. -/
theorem C8_admission_position_witness :
    (addToQueue initState "alice" [] none).1.queue_position = 1
    ∧ (addToQueue (addToQueue initState "alice" [] none).2 "bob" [] none).1.queue_position = 2
    ∧ (addToQueue (addToQueue (addToQueue initState "alice" [] none).2 "bob" [] none).2 "carol" [] none).1.queue_position = 3 :=
  (C8_admission_position initState "alice" "bob" "carol" [] [] [] none none none).2 rfl

/-- C4: when the completion call fails with message `msg` while the worker
is processing request `id`, the single `wFinishErr` step is enabled (the
loop does not raise): it appends the terminal error marker to the relay
channel when the identifier is still a key of `stream_chunks` (failure to
publish is swallowed: when the key is gone the relay map is untouched),
sets the Status Record to "error" with the captured message, records a
completion timestamp, increments `total_errors`, clears
`current_request_id`, leaves the queue intact and returns to the idle
dequeue loop. -/
theorem C4_worker_error_path (s : ServerState) (id : Nat) (acc : String) (msg : String)
    (r : RequestStatus)
    (hph : s.wphase = .streaming id acc [] (some msg))
    (hr : alook s.status_tracker id = some r) :
    ∃ s1, step s .wFinishErr = some s1
      ∧ alook s1.status_tracker id =
          some { r with status := .error, completed_at := some s.clock, error := some msg }
      ∧ s1.queue_stats.total_errors = s.queue_stats.total_errors + 1
      ∧ s1.queue_stats.current_request_id = none
      ∧ s1.wphase = .idle
      ∧ s1.request_queue = s.request_queue
      ∧ (id ∈ s.streamKeys →
          alook s1.relayBufs id = (alook s.relayBufs id).map (fun b => b ++ [.errMark msg]))
      ∧ (id ∉ s.streamKeys → s1.relayBufs = s.relayBufs) := by
  refine ⟨{ s with
      status_tracker := amod s.status_tracker id
        (fun r => { r with status := .error, completed_at := some s.clock, error := some msg }),
      relayBufs :=
        if id ∈ s.streamKeys then amod s.relayBufs id (fun b => b ++ [.errMark msg])
        else s.relayBufs,
      queue_stats := { s.queue_stats with
        total_errors := s.queue_stats.total_errors + 1,
        current_request_id := none },
      wphase := .idle,
      clock := s.clock + 1 }, ?_, ?_, rfl, rfl, rfl, rfl, ?_, ?_⟩
  · rw [step, hph]
  · rw [alook_amod_self, hr]
    rfl
  · intro hin
    simp [hin, alook_amod_self]
  · intro hout
    simp [hout]

/-- Witness for C4: a concrete state in which the worker just saw the
completion call fail. -/
theorem C4_worker_error_path_witness :
    ∃ s1, step { initState with
        wphase := .streaming 0 "" [] (some "Connection refused"),
        status_tracker := [(0, { status := .processing, client_id := "a", created_at := 0 })],
        streamKeys := [0],
        relayBufs := [(0, [])] } .wFinishErr = some s1
      ∧ alook s1.status_tracker 0 =
          some { status := .error, client_id := "a", created_at := 0, completed_at := some 0,
                 error := some "Connection refused" }
      ∧ s1.queue_stats.total_errors = 0 + 1
      ∧ s1.queue_stats.current_request_id = none
      ∧ s1.wphase = .idle
      ∧ s1.request_queue = []
      ∧ ((0 : Nat) ∈ [(0 : Nat)] →
          alook s1.relayBufs 0 = (alook [((0 : Nat), ([] : List Chunk))] 0).map (fun b => b ++ [.errMark "Connection refused"]))
      ∧ ((0 : Nat) ∉ [(0 : Nat)] → s1.relayBufs = [(0, [])]) :=
  C4_worker_error_path _ 0 "" "Connection refused"
    { status := .processing, client_id := "a", created_at := 0 } rfl rfl

/-!
 ## C7: position updates while queued
-/

theorem openaiPositions_dedup (obs : List PollObs) :
    ∀ last, List.Chain' (fun a b => a ≠ b) (openaiPositions last obs)
      ∧ ∀ x, (openaiPositions last obs).head? = some x → some x ≠ last := by
  induction obs with
  | nil => intro last; simp [openaiPositions]
  | cons o rest ih =>
    intro last
    by_cases hq : o.st = .queued
    · by_cases hne : some o.depth ≠ last
      · have hih := ih (some o.depth)
        refine ⟨?_, ?_⟩
        · rw [openaiPositions, if_pos hq, if_pos hne, List.chain'_cons']
          refine ⟨fun y hy => ?_, hih.1⟩
          have := hih.2 y
          simp only [Option.mem_def] at hy
          intro hxy
          exact (this hy) (by rw [hxy])
        · intro x hx
          rw [openaiPositions, if_pos hq, if_pos hne] at hx
          simp only [List.head?_cons, Option.some.injEq] at hx
          rw [← hx]
          exact hne
      · have hih := ih last
        refine ⟨?_, ?_⟩
        · rw [openaiPositions, if_pos hq, if_neg hne]
          exact hih.1
        · intro x hx
          rw [openaiPositions, if_pos hq, if_neg hne] at hx
          exact hih.2 x hx
    · simp [openaiPositions, hq]

theorem eventGenPositions_every_poll (obs : List PollObs) :
    eventGenPositions obs = (obs.takeWhile (fun o => o.st == .queued)).map PollObs.depth := by
  induction obs with
  | nil => simp [eventGenPositions]
  | cons o rest ih =>
    by_cases hq : o.st = .queued
    · simp [eventGenPositions, hq, List.takeWhile_cons, ih]
    · simp [eventGenPositions, hq, List.takeWhile_cons]

/-- C7 counterexample: the claim asserts that BOTH streaming variants emit
a position update only when the position changed since the last emitted
update.  `event_generator` (variant A, `/stream/{id}`) has no such check:
two consecutive polls both observing depth 2 while queued yield two
identical `{'position': 2}` events.  The OpenAI variant does deduplicate
(one comment) on the same observations, so the claim, as stated over both
variants, is false. -/
theorem C7_cex_variantA_repeats :
    eventGenPositions [⟨.queued, 2⟩, ⟨.queued, 2⟩, ⟨.complete, 0⟩] = [2, 2]
    ∧ openaiPositions none [⟨.queued, 2⟩, ⟨.queued, 2⟩, ⟨.complete, 0⟩] = [2] := by
  constructor <;> rfl

/-- C7 (amended): while a request's Status Record is "queued" both
handlers poll at a fixed short interval and emit position updates computed
from the current queue depth, but only the OpenAI-compatible variant
(`openai_stream_generator`) suppresses updates whose position equals the
last emitted one; `event_generator` (`/stream/{id}`) emits a position
event on every poll, including consecutive polls observing the same
depth. -/
theorem C7_position_updates :
    (∀ last obs, List.Chain' (fun a b => a ≠ b) (openaiPositions last obs)
      ∧ ∀ x, (openaiPositions last obs).head? = some x → some x ≠ last)
    ∧ ∀ obs, eventGenPositions obs = (obs.takeWhile (fun o => o.st == .queued)).map PollObs.depth :=
  ⟨fun last obs => openaiPositions_dedup obs last, eventGenPositions_every_poll⟩

/-!
 ## C9: the non-streaming OpenAI-compatible branch
-/

theorem pollChatAux_timeout (f : Nat → StatusView) (rem : Nat) :
    ∀ k, (∀ i, i ≤ rem → inFlight (f (k + i)) = true) →
      pollChatAux f rem k = .timeoutErr := by
  induction rem with
  | zero =>
    intro k h
    have h0 : inFlight (f k) = true := by simpa using h 0 (Nat.le_refl 0)
    rw [pollChatAux, h0]
    simp
  | succ n ih =>
    intro k h
    have h0 : inFlight (f k) = true := by simpa using h 0 (Nat.zero_le _)
    rw [pollChatAux, h0]
    simp only [if_true]
    exact ih (k + 1) (fun i hi => by
      have := h (i + 1) (Nat.succ_le_succ hi)
      have heq : k + (i + 1) = k + 1 + i := by omega
      rwa [heq] at this)

theorem pollChatAux_exit (f : Nat → StatusView) (rem : Nat) :
    ∀ k k0, k ≤ k0 → k0 ≤ k + rem → inFlight (f k0) = false →
      (∀ j, k ≤ j → j < k0 → inFlight (f j) = true) →
      pollChatAux f rem k = assembleChat (f k0) := by
  induction rem with
  | zero =>
    intro k k0 hk hle hterm _
    have : k0 = k := by omega
    subst this
    rw [pollChatAux, hterm]
    simp
  | succ n ih =>
    intro k k0 hk hle hterm hbefore
    by_cases hkk : k = k0
    · subst hkk
      rw [pollChatAux, hterm]
      simp
    · have hflight : inFlight (f k) = true :=
        hbefore k (Nat.le_refl k) (Nat.lt_of_le_of_ne hk hkk)
      rw [pollChatAux, hflight]
      simp only [if_true]
      exact ih (k + 1) k0 (by omega) (by omega) hterm
        (fun j hj1 hj2 => hbefore j (by omega) hj2)

/-- C9: a non-streaming `/v1/chat/completions` call polls every 0.1 s
while the record is "queued"/"processing".  If the record is still in
flight at every poll through the 300-second budget, the call returns the
timeout error object (it terminates; `openaiNonStreaming` is total).  If
the record first leaves the in-flight states at poll `k0` within the
budget, the call returns the assembled object: the error object when the
terminal state is "error", and the single chat-completion object carrying
the stored result otherwise. -/
theorem C9_nonstreaming_terminates (f : Nat → StatusView) :
    ((∀ k, k ≤ 3001 → inFlight (f k) = true) → openaiNonStreaming f = .timeoutErr)
    ∧ (∀ k0, k0 ≤ 3001 → inFlight (f k0) = false → (∀ j, j < k0 → inFlight (f j) = true) →
        openaiNonStreaming f = assembleChat (f k0)
        ∧ ((f k0).st = .error →
            openaiNonStreaming f = .serverErr (((f k0).error).getD "Unknown error"))
        ∧ ((f k0).st ≠ .error → openaiNonStreaming f = .completion (f k0).result)) := by
  constructor
  · intro h
    exact pollChatAux_timeout f 3001 0 (fun i hi => by simpa using h i hi)
  · intro k0 hk0 hterm hbefore
    have hmain : openaiNonStreaming f = assembleChat (f k0) :=
      pollChatAux_exit f 3001 0 k0 (Nat.zero_le _) (by omega) hterm
        (fun j _ hj => hbefore j hj)
    refine ⟨hmain, fun herr => ?_, fun herr => ?_⟩
    · rw [hmain, assembleChat, if_pos herr]
    · rw [hmain, assembleChat, if_neg herr]

/-- Witness for C9: a request stuck "queued" forever yields the timeout
error object. -/
theorem C9_nonstreaming_terminates_witness :
    openaiNonStreaming (fun _ => { st := .queued, result := none, error := none }) = .timeoutErr :=
  (C9_nonstreaming_terminates (fun _ => { st := .queued, result := none, error := none })).1
    (fun _ _ => rfl)

/-!
 ## C5: admission-endpoint validation
-/

/-- A syntactically well-formed `/queue/add` body whose `messages` list is
empty. -/
def emptyMessagesBody : JVal :=
  .jobj [("client_id", .jstr "c"), ("messages", .jarr []), ("model", .jstr "m")]

/-- C5 counterexample: the claim asserts that `/queue/add` rejects a
request with an empty message list (and unknown-shape messages) without
enqueueing it, without creating a Status Record and without incrementing
`total_received`.  The pydantic model `QueueRequest` declares
`messages: list[dict]` with no length or shape constraint, so a body with
`messages = []` passes validation and the handler enqueues it, creates a
"queued" Status Record and increments the counter. -/
theorem C5_cex_empty_messages_accepted :
    (addToQueueEndpoint initState emptyMessagesBody [] none).2.request_queue.length = 1
    ∧ (addToQueueEndpoint initState emptyMessagesBody [] none).2.queue_stats.total_received = 1
    ∧ alook (addToQueueEndpoint initState emptyMessagesBody [] none).2.status_tracker 0 =
        some { status := .queued, client_id := "c", created_at := 0, queue_entered_position := some 1 }
    ∧ (addToQueueEndpoint initState emptyMessagesBody [] none).1 =
        .ok { status := "queued", request_id := 0, queue_position := 1 } := by
  refine ⟨rfl, rfl, rfl, rfl⟩

/-- C5 (amended): `/queue/add` rejects a request whose required fields
(`client_id`, `messages`, `model`) are absent, synchronously with a
validation error, without enqueueing it, without creating a Status Record
and without incrementing `total_received` (the state is unchanged); but a
body whose `messages` field is a list of objects of any shape — including
the empty list — passes validation and is enqueued. -/
theorem C5_validation (s : ServerState) (body : JVal) (chunks : List UpChunk)
    (ending : Option String) (c m : String) (ms : List JVal)
    (hmiss : jget body "client_id" = none ∨ jget body "messages" = none ∨ jget body "model" = none)
    (hobj : ms.all isObj = true) :
    addToQueueEndpoint s body chunks ending = (.error "validation error", s)
    ∧ (∃ resp s1,
        addToQueueEndpoint s
          (.jobj [("client_id", .jstr c), ("messages", .jarr ms), ("model", .jstr m)])
          chunks ending = (.ok resp, s1)
        ∧ s1.request_queue.length = s.request_queue.length + 1
        ∧ s1.queue_stats.total_received = s.queue_stats.total_received + 1
        ∧ alook s1.status_tracker s.next_id =
            some { status := .queued, client_id := c, created_at := s.clock,
                   queue_entered_position := some (s.request_queue.length + 1) }) := by
  constructor
  · have hv : validateQueueRequest body = none := by
      unfold validateQueueRequest
      rcases hmiss with h | h | h <;> rw [h] <;> split <;> simp_all
    simp [addToQueueEndpoint, hv]
  · have hv : validateQueueRequest
        (.jobj [("client_id", .jstr c), ("messages", .jarr ms), ("model", .jstr m)]) =
        some { client_id := c, messages := ms, model := m } := by
      simp [validateQueueRequest, jget, List.find?, hobj]
    refine ⟨(addToQueue s c chunks ending).1, (addToQueue s c chunks ending).2, ?_, ?_, rfl, ?_⟩
    · simp [addToQueueEndpoint, hv]
    · simp [addToQueue]
    · simpa [addToQueue] using alook_aset_self s.status_tracker s.next_id _

/-- Witness for C5 (amended) at concrete inputs: a body missing
`client_id` is rejected with the state unchanged, and a well-formed body
with an empty message list is accepted. -/
theorem C5_validation_witness :
    addToQueueEndpoint initState (.jobj [("messages", .jarr []), ("model", .jstr "m")]) [] none =
      (.error "validation error", initState)
    ∧ (∃ resp s1,
        addToQueueEndpoint initState
          (.jobj [("client_id", .jstr "c"), ("messages", .jarr []), ("model", .jstr "m")])
          [] none = (.ok resp, s1)
        ∧ s1.request_queue.length = initState.request_queue.length + 1
        ∧ s1.queue_stats.total_received = initState.queue_stats.total_received + 1
        ∧ alook s1.status_tracker initState.next_id =
            some { status := .queued, client_id := "c", created_at := initState.clock,
                   queue_entered_position := some (initState.request_queue.length + 1) }) :=
  C5_validation initState (.jobj [("messages", .jarr []), ("model", .jstr "m")]) [] none
    "c" "m" [] (Or.inl rfl) rfl

/-!
 ## C6: relay fragments concatenate to the stored result
-/

/-- Concatenation of a list of strings. -/
def concatStrs : List String → String
  | [] => ""
  | t :: rest => t ++ concatStrs rest

theorem workerGo_spec (l : List UpChunk) : ∀ (acc : String) (buf : List Chunk),
    workerGo acc buf l =
      (acc ++ concatStrs (l.filterMap fragOf),
       buf ++ (l.filterMap fragOf).map Chunk.frag ++ [Chunk.done]) := by
  induction l with
  | nil =>
    intro acc buf
    simp [workerGo, concatStrs, String.append_empty]
  | cons c rest ih =>
    intro acc buf
    cases hc : fragOf c with
    | some t =>
      simp only [workerGo, hc, List.filterMap_cons, ih, concatStrs]
      simp [String.append_assoc]
    | none =>
      simp only [workerGo, hc, List.filterMap_cons, ih]

theorem fragTexts_of_frags (fs : List String) :
    fragTexts (fs.map Chunk.frag ++ [Chunk.done]) = fs := by
  induction fs with
  | nil => rfl
  | cons t rest ih => simpa [fragTexts, List.filterMap_cons] using ih

theorem chunkTexts_drain_frags (fs : List String) :
    chunkTexts (drainEvents (fs.map Chunk.frag ++ [Chunk.done])) = fs := by
  induction fs with
  | nil => rfl
  | cons t rest ih => simpa [drainEvents, chunkTexts, List.filterMap_cons] using ih

theorem runSteps_cons_of_step {s s1 : ServerState} {st : Step} (l : List Step)
    (h : step s st = some s1) : runSteps s (st :: l) = runSteps s1 l := by
  simp [runSteps, h]

theorem workerRun (chunks : List UpChunk) :
    ∀ (s : ServerState) (id : Nat) (acc : String) (buf : List Chunk) (r : RequestStatus),
      s.wphase = .streaming id acc chunks none →
      alook s.relayBufs id = some buf →
      alook s.status_tracker id = some r →
      ∃ s1, runSteps s (List.replicate chunks.length .wPublish ++ [.wFinishOk]) = some s1
        ∧ alook s1.relayBufs id = some (workerGo acc buf chunks).2
        ∧ alook s1.status_tracker id =
            some { r with
                   status := .complete,
                   completed_at := some (s1.clock - 1),
                   result := some (workerGo acc buf chunks).1 } := by
  induction chunks with
  | nil =>
    intro s id acc buf r hph hb hr
    have hstep : step s .wFinishOk = some { s with
        relayBufs := amod s.relayBufs id (fun b => b ++ [Chunk.done]),
        status_tracker := amod s.status_tracker id
          (fun r => { r with status := .complete, completed_at := some s.clock, result := some acc }),
        queue_stats := { s.queue_stats with
          total_processed := s.queue_stats.total_processed + 1,
          current_request_id := none },
        wphase := .idle,
        clock := s.clock + 1 } := by
      simp only [step, hph]
    refine ⟨{ s with
        relayBufs := amod s.relayBufs id (fun b => b ++ [Chunk.done]),
        status_tracker := amod s.status_tracker id
          (fun r => { r with status := .complete, completed_at := some s.clock, result := some acc }),
        queue_stats := { s.queue_stats with
          total_processed := s.queue_stats.total_processed + 1,
          current_request_id := none },
        wphase := .idle,
        clock := s.clock + 1 }, ?_, ?_, ?_⟩
    · show runSteps s [.wFinishOk] = _
      rw [runSteps_cons_of_step [] hstep]
      rfl
    · show alook (amod s.relayBufs id (fun b => b ++ [Chunk.done])) id = some (workerGo acc buf []).2
      rw [alook_amod_self, hb, workerGo]
      rfl
    · simp only [alook_amod_self, hr, Option.map_some]
      rfl
  | cons c rest ih =>
    intro s id acc buf r hph hb hr
    cases hc : fragOf c with
    | some t =>
      have hstep : step s .wPublish = some { s with
          relayBufs := amod s.relayBufs id (fun b => b ++ [.frag t]),
          wphase := .streaming id (acc ++ t) rest none,
          clock := s.clock + 1 } := by
        simp only [step, hph, hc]
      obtain ⟨s1, hrun, hbuf, htr⟩ := ih
        { s with
          relayBufs := amod s.relayBufs id (fun b => b ++ [.frag t]),
          wphase := .streaming id (acc ++ t) rest none,
          clock := s.clock + 1 }
        id (acc ++ t) (buf ++ [.frag t]) r rfl
        (by rw [alook_amod_self, hb]; rfl) hr
      refine ⟨s1, ?_, ?_, ?_⟩
      · show runSteps s (.wPublish :: (List.replicate rest.length .wPublish ++ [.wFinishOk])) = some s1
        rw [runSteps_cons_of_step _ hstep]
        exact hrun
      · simp only [workerGo, hc]
        exact hbuf
      · simp only [workerGo, hc]
        exact htr
    | none =>
      have hstep : step s .wPublish = some { s with
          wphase := .streaming id acc rest none,
          clock := s.clock + 1 } := by
        simp only [step, hph, hc]
      obtain ⟨s1, hrun, hbuf, htr⟩ := ih
        { s with wphase := .streaming id acc rest none, clock := s.clock + 1 }
        id acc buf r rfl hb hr
      refine ⟨s1, ?_, ?_, ?_⟩
      · show runSteps s (.wPublish :: (List.replicate rest.length .wPublish ++ [.wFinishOk])) = some s1
        rw [runSteps_cons_of_step _ hstep]
        exact hrun
      · simp only [workerGo, hc]
        exact hbuf
      · simp only [workerGo, hc]
        exact htr

/-- C6: when the worker processes a request to successful completion, the
run of its streaming loop publishes to the request's relay channel
exactly the fragment sequence whose concatenation is the `result` text
stored in the Status Record, and the drain loop of `/stream/{id}`
re-emits exactly those texts as chunk events before its terminal done
event. -/
theorem C6_fragments_concat_to_result (chunks : List UpChunk) (s : ServerState) (id : Nat)
    (r : RequestStatus)
    (hph : s.wphase = .streaming id "" chunks none)
    (hb : alook s.relayBufs id = some [])
    (hr : alook s.status_tracker id = some r) :
    ∃ s1, runSteps s (List.replicate chunks.length .wPublish ++ [.wFinishOk]) = some s1
      ∧ alook s1.relayBufs id = some (workerProcess chunks).2
      ∧ alook s1.status_tracker id =
          some { r with
                 status := .complete,
                 completed_at := some (s1.clock - 1),
                 result := some (workerProcess chunks).1 }
      ∧ concatStrs (fragTexts (workerProcess chunks).2) = (workerProcess chunks).1
      ∧ chunkTexts (drainEvents (workerProcess chunks).2) = fragTexts (workerProcess chunks).2 := by
  obtain ⟨s1, hrun, hbuf, htr⟩ := workerRun chunks s id "" [] r hph hb hr
  have hpure : workerProcess chunks =
      (concatStrs (chunks.filterMap fragOf),
       (chunks.filterMap fragOf).map Chunk.frag ++ [Chunk.done]) := by
    rw [workerProcess, workerGo_spec]
    simp [String.empty_append]
  refine ⟨s1, hrun, ?_, ?_, ?_, ?_⟩
  · rwa [workerProcess]
  · rwa [workerProcess]
  · rw [hpure, fragTexts_of_frags]
  · rw [hpure, chunkTexts_drain_frags, fragTexts_of_frags]

/-- Witness for C6: the worker streams "Hello" and " world"; the relay
receives those two fragments then the done marker, and the stored result
is "Hello world". -/
theorem C6_fragments_concat_to_result_witness :
    ∃ s1, runSteps { initState with
        wphase := .streaming 0 "" [⟨[some "Hello"]⟩, ⟨[some " world"]⟩] none,
        relayBufs := [(0, [])],
        streamKeys := [0],
        status_tracker := [(0, { status := .processing, client_id := "a", created_at := 0 })] }
      (List.replicate ([⟨[some "Hello"]⟩, ⟨[some " world"]⟩] : List UpChunk).length .wPublish ++ [.wFinishOk]) = some s1
      ∧ alook s1.relayBufs 0 = some (workerProcess [⟨[some "Hello"]⟩, ⟨[some " world"]⟩]).2
      ∧ alook s1.status_tracker 0 =
          some { status := .complete,
                 client_id := "a",
                 created_at := 0,
                 completed_at := some (s1.clock - 1),
                 result := some (workerProcess [⟨[some "Hello"]⟩, ⟨[some " world"]⟩]).1 }
      ∧ concatStrs (fragTexts (workerProcess [⟨[some "Hello"]⟩, ⟨[some " world"]⟩]).2) =
          (workerProcess [⟨[some "Hello"]⟩, ⟨[some " world"]⟩]).1
      ∧ chunkTexts (drainEvents (workerProcess [⟨[some "Hello"]⟩, ⟨[some " world"]⟩]).2) =
          fragTexts (workerProcess [⟨[some "Hello"]⟩, ⟨[some " world"]⟩]).2 :=
  C6_fragments_concat_to_result [⟨[some "Hello"]⟩, ⟨[some " world"]⟩] _ 0
    { status := .processing, client_id := "a", created_at := 0 } rfl rfl rfl

/-!
 ## Reachability invariants of the transition system
-/

theorem alook_mem {α : Type} {m : List (Nat × α)} {k : Nat} {v : α}
    (h : alook m k = some v) : (k, v) ∈ m := by
  induction m with
  | nil => simp [alook] at h
  | cons p r ih =>
    rw [alook] at h
    by_cases hp : p.1 = k
    · rw [if_pos hp] at h
      subst hp
      obtain rfl : p.2 = v := by simpa using h
      simp
    · rw [if_neg hp] at h
      exact List.mem_cons_of_mem p (ih h)

theorem alook_key_mem {α : Type} {m : List (Nat × α)} {k : Nat} {v : α}
    (h : alook m k = some v) : k ∈ m.map Prod.fst :=
  List.mem_map.2 ⟨(k, v), alook_mem h, rfl⟩

theorem mem_amod {α : Type} {m : List (Nat × α)} {k : Nat} {f : α → α} {q : Nat × α}
    (h : q ∈ amod m k f) :
    ∃ p, p ∈ m ∧ ((p.1 ≠ k ∧ q = p) ∨ (p.1 = k ∧ q = (k, f p.2))) := by
  rw [amod] at h
  obtain ⟨p, hp, hq⟩ := List.mem_map.1 h
  refine ⟨p, hp, ?_⟩
  by_cases hk : p.1 = k
  · right
    exact ⟨hk, by rw [← hq, if_pos hk]⟩
  · left
    exact ⟨hk, by rw [← hq, if_neg hk]⟩

theorem keys_amod {α : Type} (m : List (Nat × α)) (k : Nat) (f : α → α) :
    (amod m k f).map Prod.fst = m.map Prod.fst := by
  rw [amod, List.map_map]
  refine List.map_congr_left (fun p _ => ?_)
  by_cases hp : p.1 = k
  · simp [Function.comp, hp]
  · simp [Function.comp, hp]

theorem aset_fresh {α : Type} (m : List (Nat × α)) (k : Nat) (v : α)
    (h : ∀ p ∈ m, p.1 ≠ k) : aset m k v = m ++ [(k, v)] := by
  induction m with
  | nil => rfl
  | cons p r ih =>
    rw [aset, if_neg (h p (List.mem_cons_self p r)), List.cons_append]
    rw [ih (fun q hq => h q (List.mem_cons_of_mem p hq))]

/-- The request the worker currently holds, if any. -/
def workerId : WPhase → Option Nat
  | .idle => none
  | .calling id _ _ => some id
  | .streaming id _ _ _ => some id

/-- The event stream ends with a terminal event. -/
def endsTerminal (evs : List HEvent) : Prop :=
  ∃ e, evs.getLast? = some e ∧ isTerminalEvent e = true

/-- While the worker holds request `id`: `queue_stats.current_request_id`
names it, its Status Record is the unique "processing" one, and it is no
longer in the queue. -/
def workerOn (s : ServerState) (id : Nat) : Prop :=
  s.queue_stats.current_request_id = some id
  ∧ (∃ r, alook s.status_tracker id = some r ∧ r.status = .processing)
  ∧ (∀ p ∈ s.status_tracker, p.2.status = .processing → p.1 = id)
  ∧ id < s.next_id
  ∧ (∀ it ∈ s.request_queue, it.request_id ≠ id)

/-- Correlation between the worker's control position, the status tracker
and `queue_stats`. -/
def phaseInv (s : ServerState) : Prop :=
  match s.wphase with
  | .idle =>
    s.queue_stats.current_request_id = none
    ∧ ∀ p ∈ s.status_tracker, p.2.status ≠ .processing
  | .calling id _ _ => workerOn s id
  | .streaming id _ _ _ => workerOn s id

/-- The inductive invariant of reachable server states. -/
structure WF (s : ServerState) : Prop where
  tkNodup : (s.status_tracker.map Prod.fst).Nodup
  tkLt : ∀ k ∈ s.status_tracker.map Prod.fst, k < s.next_id
  quLt : ∀ k ∈ s.request_queue.map QueueItem.request_id, k < s.next_id
  quNodup : (s.request_queue.map QueueItem.request_id).Nodup
  quQueued : ∀ it ∈ s.request_queue,
    ∃ r, alook s.status_tracker it.request_id = some r ∧ r.status = .queued
  phase : phaseInv s
  hclean : ∀ h ∈ s.handlers, h.phase = .cleanup → endsTerminal h.events

theorem WF_initState : WF initState := by
  refine ⟨?_, ?_, ?_, ?_, ?_, ?_, ?_⟩ <;> simp [initState, phaseInv]

theorem alook_append_of_some {α : Type} {m m2 : List (Nat × α)} {k : Nat} {v : α}
    (h : alook m k = some v) : alook (m ++ m2) k = some v := by
  induction m with
  | nil => simp [alook] at h
  | cons p r ih =>
    simp only [List.cons_append, alook] at h ⊢
    by_cases hp : p.1 = k
    · rwa [if_pos hp] at h ⊢
    · rw [if_neg hp] at h ⊢
      exact ih h

theorem endsTerminal_concat (l : List HEvent) (e : HEvent) (he : isTerminalEvent e = true) :
    endsTerminal (l ++ [e]) :=
  ⟨e, List.getLast?_concat l, he⟩

theorem step_WF {s s1 : ServerState} {st : Step} (hwf : WF s) (h : step s st = some s1) :
    WF s1 := by
  obtain ⟨tkN, tkL, quL, quN, quQ, ph, hcl⟩ := hwf
  cases st with
  | admitReq client chunks ending =>
    simp only [step, addToQueue] at h
    cases h
    have hfreshT : ∀ p ∈ s.status_tracker, p.1 ≠ s.next_id := by
      intro p hp
      exact Nat.ne_of_lt (tkL p.1 (List.mem_map.2 ⟨p, hp, rfl⟩))
    have haset : aset s.status_tracker s.next_id
        { status := .queued, client_id := client, created_at := s.clock,
          queue_entered_position := some (s.request_queue.length + 1) } =
        s.status_tracker ++ [(s.next_id,
          { status := .queued, client_id := client, created_at := s.clock,
            queue_entered_position := some (s.request_queue.length + 1) })] :=
      aset_fresh _ _ _ hfreshT
    refine ⟨?_, ?_, ?_, ?_, ?_, ?_, ?_⟩ <;> (try dsimp only)
    · rw [haset]
      simp only [List.map_append, List.map_cons, List.map_nil]
      rw [List.nodup_append]
      refine ⟨tkN, List.nodup_singleton _, ?_⟩
      intro k hk hk1
      obtain rfl : k = s.next_id := by simpa using hk1
      exact absurd (tkL _ hk) (lt_irrefl _)
    · rw [haset]
      intro k hk
      simp only [List.map_append, List.map_cons, List.map_nil, List.mem_append,
        List.mem_singleton] at hk
      rcases hk with hk | hk
      · exact Nat.lt_succ_of_lt (tkL k hk)
      · subst hk
        exact Nat.lt_succ_self _
    · intro k hk
      simp only [List.map_append, List.map_cons, List.map_nil, List.mem_append,
        List.mem_singleton] at hk
      rcases hk with hk | hk
      · exact Nat.lt_succ_of_lt (quL k hk)
      · subst hk
        exact Nat.lt_succ_self _
    · simp only [List.map_append, List.map_cons, List.map_nil]
      rw [List.nodup_append]
      refine ⟨quN, List.nodup_singleton _, ?_⟩
      intro k hk hk1
      obtain rfl : k = s.next_id := by simpa using hk1
      exact absurd (quL _ hk) (lt_irrefl _)
    · intro it hit
      rcases List.mem_append.1 hit with hit | hit
      · obtain ⟨r0, hr0, hr0q⟩ := quQ it hit
        have hne : it.request_id ≠ s.next_id :=
          Nat.ne_of_lt (quL _ (List.mem_map.2 ⟨it, hit, rfl⟩))
        refine ⟨r0, ?_, hr0q⟩
        rw [alook_aset_ne _ _ _ _ hne]
        exact hr0
      · obtain rfl : it = _ := by simpa using hit
        exact ⟨_, alook_aset_self _ _ _, rfl⟩
    · rcases hsw : s.wphase with _ | ⟨wid, wch, wen⟩ | ⟨wid, wacc, wpend, wen⟩ <;>
        simp only [phaseInv, hsw] at ph ⊢
      · obtain ⟨hcur, hnp⟩ := ph
        refine ⟨hcur, ?_⟩
        intro p hp
        rw [haset] at hp
        rcases List.mem_append.1 hp with hp | hp
        · exact hnp p hp
        · obtain rfl : p = _ := by simpa using hp
          simp
      all_goals {
        obtain ⟨hcur, ⟨r0, hr0, hr0p⟩, huniq, hlt, hdisj⟩ := ph
        refine ⟨hcur, ⟨r0, ?_, hr0p⟩, ?_, Nat.lt_succ_of_lt hlt, ?_⟩
        · rw [alook_aset_ne _ _ _ _ (Nat.ne_of_lt hlt)]
          exact hr0
        · intro p hp hpp
          rw [haset] at hp
          rcases List.mem_append.1 hp with hp | hp
          · exact huniq p hp hpp
          · obtain rfl : p = _ := by simpa using hp
            simp at hpp
        · intro it hit
          rcases List.mem_append.1 hit with hit | hit
          · exact hdisj it hit
          · obtain rfl : it = _ := by simpa using hit
            exact fun hh => absurd (hh ▸ hlt) (lt_irrefl _)
      }
    · exact hcl
  | wDequeue =>
    simp only [step] at h
    rcases hsw : s.wphase with _ | ⟨wid, wch, wen⟩ | ⟨wid, wacc, wpend, wen⟩ <;>
      rw [hsw] at h <;> try exact Option.noConfusion h
    try dsimp only at h
    rcases hqu : s.request_queue with _ | ⟨it, rest⟩ <;> rw [hqu] at h <;>
      try exact Option.noConfusion h
    cases h
    simp only [phaseInv, hsw] at ph
    obtain ⟨hcur, hnp⟩ := ph
    have hquN : (it.request_id :: rest.map QueueItem.request_id).Nodup := by
      rw [← List.map_cons, ← hqu]
      exact quN
    have hheadnotin : it.request_id ∉ rest.map QueueItem.request_id :=
      (List.nodup_cons.1 hquN).1
    refine ⟨?_, ?_, ?_, ?_, ?_, ?_, ?_⟩ <;> (try dsimp only)
    · rw [keys_amod]
      exact tkN
    · rw [keys_amod]
      exact tkL
    · intro k hk
      obtain ⟨x, hx, rfl⟩ := List.mem_map.1 hk
      exact quL _ (by rw [hqu]; exact List.mem_map.2 ⟨x, List.mem_cons_of_mem _ hx, rfl⟩)
    · exact (List.nodup_cons.1 hquN).2
    · intro x hx
      have hxne : x.request_id ≠ it.request_id := fun hh =>
        hheadnotin (hh ▸ List.mem_map.2 ⟨x, hx, rfl⟩)
      obtain ⟨r, hr1, hr2⟩ := quQ x (by rw [hqu]; exact List.mem_cons_of_mem _ hx)
      refine ⟨r, ?_, hr2⟩
      rw [alook_amod_ne _ _ _ _ hxne]
      exact hr1
    · simp only [phaseInv]
      obtain ⟨r0, hr0, hr0q⟩ := quQ it (by rw [hqu]; exact List.mem_cons_self _ _)
      refine ⟨rfl, ⟨{ r0 with status := .processing, started_at := some s.clock }, ?_, rfl⟩,
        ?_, ?_, ?_⟩
      · rw [alook_amod_self, hr0]
        rfl
      · intro p hp hpp
        try dsimp only at hp
        rcases mem_amod hp with ⟨q, hq, ⟨hqne, heq⟩ | ⟨hqk, heq⟩⟩
        · rw [heq] at hpp
          exact absurd hpp (hnp q hq)
        · rw [heq]
      · exact quL _ (by rw [hqu]; exact List.mem_map.2 ⟨it, List.mem_cons_self _ _, rfl⟩)
      · intro x hx hh
        try dsimp only at hx
        exact hheadnotin (hh ▸ List.mem_map.2 ⟨x, hx, rfl⟩)
    · exact hcl
  | wStream =>
    simp only [step] at h
    rcases hsw : s.wphase with _ | ⟨wid, wch, wen⟩ | ⟨wid, wacc, wpend, wen⟩ <;>
      rw [hsw] at h <;> try exact Option.noConfusion h
    try dsimp only at h
    cases h
    simp only [phaseInv, hsw] at ph
    refine ⟨tkN, tkL, quL, quN, quQ, ?_, hcl⟩
    simp only [phaseInv]
    exact ph
  | wPublish =>
    simp only [step] at h
    rcases hsw : s.wphase with _ | ⟨wid, wch, wen⟩ | ⟨wid, wacc, wpend, wen⟩ <;>
      rw [hsw] at h <;> try exact Option.noConfusion h
    simp only [phaseInv, hsw] at ph
    try dsimp only at h
    rcases wpend with _ | ⟨c, rest⟩
    · exact Option.noConfusion h
    try dsimp only at h
    rcases hc : fragOf c with _ | t <;> rw [hc] at h <;> cases h <;>
      exact ⟨tkN, tkL, quL, quN, quQ, by simp only [phaseInv]; exact ph, hcl⟩
  | wFinishOk =>
    simp only [step] at h
    rcases hsw : s.wphase with _ | ⟨wid, wch, wen⟩ | ⟨wid, wacc, wpend, wen⟩ <;>
      rw [hsw] at h <;> try exact Option.noConfusion h
    try dsimp only at h
    rcases wpend with _ | ⟨c, rest⟩ <;> rcases wen with _ | msg <;>
      try exact Option.noConfusion h
    cases h
    simp only [phaseInv, hsw] at ph
    obtain ⟨hcur, ⟨r0, hr0, hr0p⟩, huniq, hlt, hdisj⟩ := ph
    refine ⟨?_, ?_, ?_, ?_, ?_, ?_, ?_⟩ <;> (try dsimp only)
    · rw [keys_amod]
      exact tkN
    · rw [keys_amod]
      exact tkL
    · exact quL
    · exact quN
    · intro x hx
      obtain ⟨r, hr1, hr2⟩ := quQ x hx
      refine ⟨r, ?_, hr2⟩
      rw [alook_amod_ne _ _ _ _ (hdisj x hx)]
      exact hr1
    · simp only [phaseInv]
      refine ⟨by simp, ?_⟩
      intro p hp hpp
      try dsimp only at hp
      rcases mem_amod hp with ⟨q, hq, ⟨hqne, heq⟩ | ⟨hqk, heq⟩⟩
      · rw [heq] at hpp
        exact hqne (huniq q hq hpp)
      · rw [heq] at hpp
        simp at hpp
    · exact hcl
  | wFinishErr =>
    simp only [step] at h
    rcases hsw : s.wphase with _ | ⟨wid, wch, wen⟩ | ⟨wid, wacc, wpend, wen⟩ <;>
      rw [hsw] at h <;> try exact Option.noConfusion h
    try dsimp only at h
    rcases wpend with _ | ⟨c, rest⟩ <;> rcases wen with _ | msg <;>
      try exact Option.noConfusion h
    cases h
    simp only [phaseInv, hsw] at ph
    obtain ⟨hcur, ⟨r0, hr0, hr0p⟩, huniq, hlt, hdisj⟩ := ph
    refine ⟨?_, ?_, ?_, ?_, ?_, ?_, ?_⟩ <;> (try dsimp only)
    · rw [keys_amod]
      exact tkN
    · rw [keys_amod]
      exact tkL
    · exact quL
    · exact quN
    · intro x hx
      obtain ⟨r, hr1, hr2⟩ := quQ x hx
      refine ⟨r, ?_, hr2⟩
      rw [alook_amod_ne _ _ _ _ (hdisj x hx)]
      exact hr1
    · simp only [phaseInv]
      refine ⟨by simp, ?_⟩
      intro p hp hpp
      try dsimp only at hp
      rcases mem_amod hp with ⟨q, hq, ⟨hqne, heq⟩ | ⟨hqk, heq⟩⟩
      · rw [heq] at hpp
        exact hqne (huniq q hq hpp)
      · rw [heq] at hpp
        simp at hpp
    · exact hcl
  | hStart reqId variantB =>
    simp only [step] at h
    rcases hget : alook s.status_tracker reqId with _ | r <;> rw [hget] at h <;>
      try exact Option.noConfusion h
    try dsimp only at h
    cases h
    have hphase1 : ∀ t : ServerState, t.wphase = s.wphase → t.queue_stats = s.queue_stats →
        t.status_tracker = s.status_tracker → t.next_id = s.next_id →
        t.request_queue = s.request_queue → phaseInv t := by
      intro t h1 h2 h3 h4 h5
      unfold phaseInv workerOn
      rw [h1, h2, h3, h4, h5]
      rcases hsw : s.wphase with _ | ⟨wid, wch, wen⟩ | ⟨wid, wacc, wpend, wen⟩ <;>
        simp only [phaseInv, workerOn, hsw] at ph ⊢ <;> exact ph
    refine ⟨?_, ?_, ?_, ?_, ?_, ?_, ?_⟩ <;> (try dsimp only)
    · exact tkN
    · exact tkL
    · exact quL
    · exact quN
    · exact quQ
    · exact hphase1 _ rfl rfl rfl rfl rfl
    · intro h2 hh2 hph2
      rcases List.mem_append.1 hh2 with hh2 | hh2
      · exact hcl h2 hh2 hph2
      · obtain rfl : h2 = _ := by simpa using hh2
        simp at hph2
  | hPoll hid =>
    simp only [step] at h
    rcases hget : s.handlers.get? hid with _ | h0 <;> rw [hget] at h <;>
      try exact Option.noConfusion h
    try dsimp only at h
    rcases hph0 : h0.phase with _ | _ | _ | _ | _ <;> rw [hph0] at h <;>
      try exact Option.noConfusion h
    try dsimp only at h
    rcases hr0 : alook s.status_tracker h0.reqId with _ | r <;> rw [hr0] at h <;>
      try exact Option.noConfusion h
    try dsimp only at h
    have hclean1 : ∀ hset : HandlerSt, hset.phase ≠ .cleanup →
        ∀ h2 ∈ setHandler s.handlers hid hset, h2.phase = .cleanup → endsTerminal h2.events := by
      intro hset hsetph h2 hh2 hph2
      rcases List.mem_or_eq_of_mem_set hh2 with hh2 | rfl
      · exact hcl h2 hh2 hph2
      · exact absurd hph2 hsetph
    have hphase1 : ∀ t : ServerState, t.wphase = s.wphase → t.queue_stats = s.queue_stats →
        t.status_tracker = s.status_tracker → t.next_id = s.next_id →
        t.request_queue = s.request_queue → phaseInv t := by
      intro t h1 h2 h3 h4 h5
      unfold phaseInv workerOn
      rw [h1, h2, h3, h4, h5]
      rcases hsw : s.wphase with _ | ⟨wid, wch, wen⟩ | ⟨wid, wacc, wpend, wen⟩ <;>
        simp only [phaseInv, workerOn, hsw] at ph ⊢ <;> exact ph
    by_cases hq : r.status = .queued
    · rw [if_pos hq] at h
      by_cases hb : h0.variantB
      · rw [if_pos hb] at h
        by_cases hlast : some s.request_queue.length ≠ h0.lastPos
        · rw [if_pos hlast] at h
          cases h
          refine ⟨?_, ?_, ?_, ?_, ?_, ?_, ?_⟩ <;> (try dsimp only)
          · exact tkN
          · exact tkL
          · exact quL
          · exact quN
          · exact quQ
          · exact hphase1 _ rfl rfl rfl rfl rfl
          · exact hclean1 _ (by simp)
        · rw [if_neg hlast] at h
          cases h
          refine ⟨?_, ?_, ?_, ?_, ?_, ?_, ?_⟩ <;> (try dsimp only)
          · exact tkN
          · exact tkL
          · exact quL
          · exact quN
          · exact quQ
          · exact hphase1 _ rfl rfl rfl rfl rfl
          · exact hcl
      · rw [if_neg hb] at h
        cases h
        refine ⟨?_, ?_, ?_, ?_, ?_, ?_, ?_⟩ <;> (try dsimp only)
        · exact tkN
        · exact tkL
        · exact quL
        · exact quN
        · exact quQ
        · exact hphase1 _ rfl rfl rfl rfl rfl
        · exact hclean1 _ (by simp)
    · rw [if_neg hq] at h
      exact Option.noConfusion h
  | hExit hid =>
    simp only [step] at h
    rcases hget : s.handlers.get? hid with _ | h0 <;> rw [hget] at h <;>
      try exact Option.noConfusion h
    try dsimp only at h
    rcases hph0 : h0.phase with _ | _ | _ | _ | _ <;> rw [hph0] at h <;>
      try exact Option.noConfusion h
    try dsimp only at h
    rcases hr0 : alook s.status_tracker h0.reqId with _ | r <;> rw [hr0] at h <;>
      try exact Option.noConfusion h
    try dsimp only at h
    have hclean1 : ∀ hset : HandlerSt, hset.phase ≠ .cleanup →
        ∀ h2 ∈ setHandler s.handlers hid hset, h2.phase = .cleanup → endsTerminal h2.events := by
      intro hset hsetph h2 hh2 hph2
      rcases List.mem_or_eq_of_mem_set hh2 with hh2 | rfl
      · exact hcl h2 hh2 hph2
      · exact absurd hph2 hsetph
    have hphase1 : ∀ t : ServerState, t.wphase = s.wphase → t.queue_stats = s.queue_stats →
        t.status_tracker = s.status_tracker → t.next_id = s.next_id →
        t.request_queue = s.request_queue → phaseInv t := by
      intro t h1 h2 h3 h4 h5
      unfold phaseInv workerOn
      rw [h1, h2, h3, h4, h5]
      rcases hsw : s.wphase with _ | ⟨wid, wch, wen⟩ | ⟨wid, wacc, wpend, wen⟩ <;>
        simp only [phaseInv, workerOn, hsw] at ph ⊢ <;> exact ph
    by_cases hq : r.status = .queued
    · rw [if_pos hq] at h
      exact Option.noConfusion h
    · rw [if_neg hq] at h
      by_cases he : r.status = .error
      · rw [if_pos he] at h
        cases h
        refine ⟨?_, ?_, ?_, ?_, ?_, ?_, ?_⟩ <;> (try dsimp only)
        · exact tkN
        · exact tkL
        · exact quL
        · exact quN
        · exact quQ
        · exact hphase1 _ rfl rfl rfl rfl rfl
        · exact hclean1 _ (by simp)
      · rw [if_neg he] at h
        cases h
        refine ⟨?_, ?_, ?_, ?_, ?_, ?_, ?_⟩ <;> (try dsimp only)
        · exact tkN
        · exact tkL
        · exact quL
        · exact quN
        · exact quQ
        · exact hphase1 _ rfl rfl rfl rfl rfl
        · exact hclean1 _ (by simp)
  | hEnter hid =>
    simp only [step] at h
    rcases hget : s.handlers.get? hid with _ | h0 <;> rw [hget] at h <;>
      try exact Option.noConfusion h
    try dsimp only at h
    rcases hph0 : h0.phase with _ | _ | _ | _ | _ <;> rw [hph0] at h <;>
      try exact Option.noConfusion h
    try dsimp only at h
    have hphase1 : ∀ t : ServerState, t.wphase = s.wphase → t.queue_stats = s.queue_stats →
        t.status_tracker = s.status_tracker → t.next_id = s.next_id →
        t.request_queue = s.request_queue → phaseInv t := by
      intro t h1 h2 h3 h4 h5
      unfold phaseInv workerOn
      rw [h1, h2, h3, h4, h5]
      rcases hsw : s.wphase with _ | ⟨wid, wch, wen⟩ | ⟨wid, wacc, wpend, wen⟩ <;>
        simp only [phaseInv, workerOn, hsw] at ph ⊢ <;> exact ph
    by_cases hin : h0.reqId ∈ s.streamKeys
    · rw [if_pos hin] at h
      cases h
      refine ⟨?_, ?_, ?_, ?_, ?_, ?_, ?_⟩ <;> (try dsimp only)
      · exact tkN
      · exact tkL
      · exact quL
      · exact quN
      · exact quQ
      · exact hphase1 _ rfl rfl rfl rfl rfl
      · intro h2 hh2 hph2
        rcases List.mem_or_eq_of_mem_set hh2 with hh2 | rfl
        · exact hcl h2 hh2 hph2
        · simp at hph2
    · rw [if_neg hin] at h
      exact Option.noConfusion h
  | hGet hid =>
    simp only [step] at h
    rcases hget : s.handlers.get? hid with _ | h0 <;> rw [hget] at h <;>
      try exact Option.noConfusion h
    try dsimp only at h
    rcases hph0 : h0.phase with _ | _ | _ | _ | _ <;> rw [hph0] at h <;>
      try exact Option.noConfusion h
    try dsimp only at h
    rcases hbuf : alook s.relayBufs h0.reqId with _ | b <;> rw [hbuf] at h <;>
      try exact Option.noConfusion h
    try dsimp only at h
    have hphase1 : ∀ t : ServerState, t.wphase = s.wphase → t.queue_stats = s.queue_stats →
        t.status_tracker = s.status_tracker → t.next_id = s.next_id →
        t.request_queue = s.request_queue → phaseInv t := by
      intro t h1 h2 h3 h4 h5
      unfold phaseInv workerOn
      rw [h1, h2, h3, h4, h5]
      rcases hsw : s.wphase with _ | ⟨wid, wch, wen⟩ | ⟨wid, wacc, wpend, wen⟩ <;>
        simp only [phaseInv, workerOn, hsw] at ph ⊢ <;> exact ph
    rcases b with _ | ⟨c, rest⟩
    · exact Option.noConfusion h
    try dsimp only at h
    rcases c with t | _ | m <;> cases h
    · refine ⟨?_, ?_, ?_, ?_, ?_, ?_, ?_⟩ <;> (try dsimp only)
      · exact tkN
      · exact tkL
      · exact quL
      · exact quN
      · exact quQ
      · exact hphase1 _ rfl rfl rfl rfl rfl
      · intro h2 hh2 hph2
        rcases List.mem_or_eq_of_mem_set hh2 with hh2 | rfl
        · exact hcl h2 hh2 hph2
        · simp at hph2
    · refine ⟨?_, ?_, ?_, ?_, ?_, ?_, ?_⟩ <;> (try dsimp only)
      · exact tkN
      · exact tkL
      · exact quL
      · exact quN
      · exact quQ
      · exact hphase1 _ rfl rfl rfl rfl rfl
      · intro h2 hh2 _
        rcases List.mem_or_eq_of_mem_set hh2 with hh2 | rfl
        · exact hcl h2 hh2 (by assumption)
        · show endsTerminal (h0.events ++ (if h0.variantB then [HEvent.finishB, HEvent.doneSentinel] else [HEvent.doneA]))
          by_cases hb : h0.variantB
          · rw [if_pos hb]
            rw [show h0.events ++ [HEvent.finishB, HEvent.doneSentinel] =
              (h0.events ++ [HEvent.finishB]) ++ [HEvent.doneSentinel] by simp]
            exact endsTerminal_concat _ _ rfl
          · rw [if_neg hb]
            exact endsTerminal_concat _ _ rfl
    · refine ⟨?_, ?_, ?_, ?_, ?_, ?_, ?_⟩ <;> (try dsimp only)
      · exact tkN
      · exact tkL
      · exact quL
      · exact quN
      · exact quQ
      · exact hphase1 _ rfl rfl rfl rfl rfl
      · intro h2 hh2 _
        rcases List.mem_or_eq_of_mem_set hh2 with hh2 | rfl
        · exact hcl h2 hh2 (by assumption)
        · exact endsTerminal_concat _ _ rfl
  | hClean hid =>
    simp only [step] at h
    rcases hget : s.handlers.get? hid with _ | h0 <;> rw [hget] at h <;>
      try exact Option.noConfusion h
    try dsimp only at h
    rcases hph0 : h0.phase with _ | _ | _ | _ | _ <;> rw [hph0] at h <;>
      try exact Option.noConfusion h
    try dsimp only at h
    cases h
    have hphase1 : ∀ t : ServerState, t.wphase = s.wphase → t.queue_stats = s.queue_stats →
        t.status_tracker = s.status_tracker → t.next_id = s.next_id →
        t.request_queue = s.request_queue → phaseInv t := by
      intro t h1 h2 h3 h4 h5
      unfold phaseInv workerOn
      rw [h1, h2, h3, h4, h5]
      rcases hsw : s.wphase with _ | ⟨wid, wch, wen⟩ | ⟨wid, wacc, wpend, wen⟩ <;>
        simp only [phaseInv, workerOn, hsw] at ph ⊢ <;> exact ph
    refine ⟨?_, ?_, ?_, ?_, ?_, ?_, ?_⟩ <;> (try dsimp only)
    · exact tkN
    · exact tkL
    · exact quL
    · exact quN
    · exact quQ
    · exact hphase1 _ rfl rfl rfl rfl rfl
    · intro h2 hh2 hph2
      rcases List.mem_or_eq_of_mem_set hh2 with hh2 | rfl
      · exact hcl h2 hh2 hph2
      · simp at hph2

theorem runSteps_WF {s : ServerState} (hwf : WF s) (l : List Step) :
    ∀ {s1 : ServerState}, runSteps s l = some s1 → WF s1 := by
  induction l generalizing s with
  | nil =>
    intro s1 h
    obtain rfl : s = s1 := by simpa [runSteps] using h
    exact hwf
  | cons st l ih =>
    intro s1 h
    rw [runSteps] at h
    rcases hst : step s st with _ | s2 <;> rw [hst] at h
    · exact Option.noConfusion h
    · exact ih (step_WF hwf hst) h

theorem runSteps_append (l1 : List Step) :
    ∀ (s : ServerState) (l2 : List Step),
      runSteps s (l1 ++ l2) = (runSteps s l1).bind (fun s1 => runSteps s1 l2) := by
  induction l1 with
  | nil => intro s l2; simp [runSteps]
  | cons st l ih =>
    intro s l2
    rw [List.cons_append, runSteps, runSteps]
    rcases hst : step s st with _ | s2
    · simp
    · simp only [Option.some_bind]
      exact ih s2 l2

/-- C1: in every reachable state, at most one Status Record is
"processing", and `queue_stats.current_request_id` is `some id` exactly
when the record of `id` is the one "processing" record (hence it is
cleared whenever no record is "processing"). -/
theorem C1_at_most_one_processing (l : List Step) (s : ServerState)
    (h : runSteps initState l = some s) :
    (∀ p ∈ s.status_tracker, ∀ q ∈ s.status_tracker,
        p.2.status = .processing → q.2.status = .processing → p.1 = q.1)
    ∧ ∀ id, s.queue_stats.current_request_id = some id ↔
        ∃ r, alook s.status_tracker id = some r ∧ r.status = .processing := by
  have hwf := runSteps_WF WF_initState l h
  have hph := hwf.phase
  rcases hsw : s.wphase with _ | ⟨wid, wch, wen⟩ | ⟨wid, wacc, wpend, wen⟩ <;>
    simp only [phaseInv, hsw] at hph
  · obtain ⟨hcur, hnp⟩ := hph
    constructor
    · intro p hp q hq hpp _
      exact absurd hpp (hnp p hp)
    · intro id
      constructor
      · intro hcur2
        rw [hcur] at hcur2
        exact Option.noConfusion hcur2
      · rintro ⟨r, hal, hrp⟩
        exact absurd hrp (hnp (id, r) (alook_mem hal))
  all_goals {
    obtain ⟨hcur, ⟨r0, hr0, hr0p⟩, huniq, _, _⟩ := hph
    constructor
    · intro p hp q hq hpp hqp
      rw [huniq p hp hpp, huniq q hq hqp]
    · intro id
      constructor
      · intro hcur2
        rw [hcur] at hcur2
        obtain rfl : wid = id := by simpa using hcur2
        exact ⟨r0, hr0, hr0p⟩
      · rintro ⟨r, hal, hrp⟩
        rw [hcur]
        exact congrArg some (huniq (id, r) (alook_mem hal) hrp).symm
  }

/-- Witness for C1: after one admission and its dequeue, the tracker has
exactly one "processing" record matched by the current-identifier. -/
theorem C1_at_most_one_processing_witness :
    ∃ s, runSteps initState [.admitReq "a" [] none, .wDequeue] = some s
      ∧ ((∀ p ∈ s.status_tracker, ∀ q ∈ s.status_tracker,
            p.2.status = .processing → q.2.status = .processing → p.1 = q.1)
        ∧ ∀ id, s.queue_stats.current_request_id = some id ↔
            ∃ r, alook s.status_tracker id = some r ∧ r.status = .processing) :=
  ⟨_, rfl, C1_at_most_one_processing [.admitReq "a" [] none, .wDequeue] _ rfl⟩

/-!
 ## C10: lifetime of fragment-relay map entries
-/

theorem step_removes_streamKey {s s1 : ServerState} {st : Step} {id : Nat}
    (h : step s st = some s1) (hin : id ∈ s.streamKeys) (hout : id ∉ s1.streamKeys) :
    ∃ hid h0, st = .hClean hid ∧ s.handlers.get? hid = some h0 ∧ h0.reqId = id
      ∧ h0.phase = .cleanup := by
  cases st with
  | admitReq client chunks ending =>
    simp only [step, addToQueue] at h
    cases h
    exact absurd hin hout
  | wDequeue =>
    simp only [step] at h
    rcases hsw : s.wphase with _ | ⟨wid, wch, wen⟩ | ⟨wid, wacc, wpend, wen⟩ <;>
      rw [hsw] at h <;> try exact Option.noConfusion h
    try dsimp only at h
    rcases hqu : s.request_queue with _ | ⟨it, rest⟩ <;> rw [hqu] at h <;>
      try exact Option.noConfusion h
    cases h
    exact absurd (List.mem_cons_of_mem _ hin) hout
  | wStream =>
    simp only [step] at h
    rcases hsw : s.wphase with _ | ⟨wid, wch, wen⟩ | ⟨wid, wacc, wpend, wen⟩ <;>
      rw [hsw] at h <;> try exact Option.noConfusion h
    try dsimp only at h
    cases h
    exact absurd hin hout
  | wPublish =>
    simp only [step] at h
    rcases hsw : s.wphase with _ | ⟨wid, wch, wen⟩ | ⟨wid, wacc, wpend, wen⟩ <;>
      rw [hsw] at h <;> try exact Option.noConfusion h
    try dsimp only at h
    rcases wpend with _ | ⟨c, rest⟩
    · exact Option.noConfusion h
    try dsimp only at h
    rcases hc : fragOf c with _ | t <;> rw [hc] at h <;> cases h <;> exact absurd hin hout
  | wFinishOk =>
    simp only [step] at h
    rcases hsw : s.wphase with _ | ⟨wid, wch, wen⟩ | ⟨wid, wacc, wpend, wen⟩ <;>
      rw [hsw] at h <;> try exact Option.noConfusion h
    try dsimp only at h
    rcases wpend with _ | ⟨c, rest⟩ <;> rcases wen with _ | msg <;>
      try exact Option.noConfusion h
    cases h
    exact absurd hin hout
  | wFinishErr =>
    simp only [step] at h
    rcases hsw : s.wphase with _ | ⟨wid, wch, wen⟩ | ⟨wid, wacc, wpend, wen⟩ <;>
      rw [hsw] at h <;> try exact Option.noConfusion h
    try dsimp only at h
    rcases wpend with _ | ⟨c, rest⟩ <;> rcases wen with _ | msg <;>
      try exact Option.noConfusion h
    cases h
    exact absurd hin hout
  | hStart reqId variantB =>
    simp only [step] at h
    rcases hget : alook s.status_tracker reqId with _ | r <;> rw [hget] at h <;>
      try exact Option.noConfusion h
    try dsimp only at h
    cases h
    exact absurd hin hout
  | hPoll hid =>
    simp only [step] at h
    rcases hget : s.handlers.get? hid with _ | h0 <;> rw [hget] at h <;>
      try exact Option.noConfusion h
    try dsimp only at h
    rcases hph0 : h0.phase with _ | _ | _ | _ | _ <;> rw [hph0] at h <;>
      try exact Option.noConfusion h
    try dsimp only at h
    rcases hr0 : alook s.status_tracker h0.reqId with _ | r <;> rw [hr0] at h <;>
      try exact Option.noConfusion h
    try dsimp only at h
    by_cases hq : r.status = .queued
    · rw [if_pos hq] at h
      by_cases hb : h0.variantB
      · rw [if_pos hb] at h
        by_cases hlast : some s.request_queue.length ≠ h0.lastPos
        · rw [if_pos hlast] at h
          cases h
          exact absurd hin hout
        · rw [if_neg hlast] at h
          cases h
          exact absurd hin hout
      · rw [if_neg hb] at h
        cases h
        exact absurd hin hout
    · rw [if_neg hq] at h
      exact Option.noConfusion h
  | hExit hid =>
    simp only [step] at h
    rcases hget : s.handlers.get? hid with _ | h0 <;> rw [hget] at h <;>
      try exact Option.noConfusion h
    try dsimp only at h
    rcases hph0 : h0.phase with _ | _ | _ | _ | _ <;> rw [hph0] at h <;>
      try exact Option.noConfusion h
    try dsimp only at h
    rcases hr0 : alook s.status_tracker h0.reqId with _ | r <;> rw [hr0] at h <;>
      try exact Option.noConfusion h
    try dsimp only at h
    by_cases hq : r.status = .queued
    · rw [if_pos hq] at h
      exact Option.noConfusion h
    · rw [if_neg hq] at h
      by_cases he : r.status = .error
      · rw [if_pos he] at h
        cases h
        exact absurd hin hout
      · rw [if_neg he] at h
        cases h
        exact absurd hin hout
  | hEnter hid =>
    simp only [step] at h
    rcases hget : s.handlers.get? hid with _ | h0 <;> rw [hget] at h <;>
      try exact Option.noConfusion h
    try dsimp only at h
    rcases hph0 : h0.phase with _ | _ | _ | _ | _ <;> rw [hph0] at h <;>
      try exact Option.noConfusion h
    try dsimp only at h
    by_cases hin2 : h0.reqId ∈ s.streamKeys
    · rw [if_pos hin2] at h
      cases h
      exact absurd hin hout
    · rw [if_neg hin2] at h
      exact Option.noConfusion h
  | hGet hid =>
    simp only [step] at h
    rcases hget : s.handlers.get? hid with _ | h0 <;> rw [hget] at h <;>
      try exact Option.noConfusion h
    try dsimp only at h
    rcases hph0 : h0.phase with _ | _ | _ | _ | _ <;> rw [hph0] at h <;>
      try exact Option.noConfusion h
    try dsimp only at h
    rcases hbuf : alook s.relayBufs h0.reqId with _ | b <;> rw [hbuf] at h <;>
      try exact Option.noConfusion h
    try dsimp only at h
    rcases b with _ | ⟨c, rest⟩
    · exact Option.noConfusion h
    try dsimp only at h
    rcases c with t | _ | m <;> cases h <;> exact absurd hin hout
  | hClean hid =>
    simp only [step] at h
    rcases hget : s.handlers.get? hid with _ | h0 <;> rw [hget] at h <;>
      try exact Option.noConfusion h
    try dsimp only at h
    rcases hph0 : h0.phase with _ | _ | _ | _ | _ <;> rw [hph0] at h <;>
      try exact Option.noConfusion h
    cases h
    refine ⟨hid, h0, rfl, hget, ?_, hph0⟩
    by_contra hne
    exact hout ((List.mem_erase_of_ne (fun hh => hne hh.symm)).2 hin)

theorem step_preserves_noHandler {s s1 : ServerState} {st : Step} {id : Nat}
    (h : step s st = some s1) (hsk : id ∈ s.streamKeys)
    (hnh : ∀ h0 ∈ s.handlers, h0.reqId ≠ id)
    (hns : ∀ vb, st ≠ .hStart id vb) :
    id ∈ s1.streamKeys ∧ ∀ h0 ∈ s1.handlers, h0.reqId ≠ id := by
  cases st with
  | admitReq client chunks ending =>
    simp only [step, addToQueue] at h
    cases h
    exact ⟨hsk, hnh⟩
  | wDequeue =>
    simp only [step] at h
    rcases hsw : s.wphase with _ | ⟨wid, wch, wen⟩ | ⟨wid, wacc, wpend, wen⟩ <;>
      rw [hsw] at h <;> try exact Option.noConfusion h
    try dsimp only at h
    rcases hqu : s.request_queue with _ | ⟨it, rest⟩ <;> rw [hqu] at h <;>
      try exact Option.noConfusion h
    cases h
    exact ⟨List.mem_cons_of_mem _ hsk, hnh⟩
  | wStream =>
    simp only [step] at h
    rcases hsw : s.wphase with _ | ⟨wid, wch, wen⟩ | ⟨wid, wacc, wpend, wen⟩ <;>
      rw [hsw] at h <;> try exact Option.noConfusion h
    try dsimp only at h
    cases h
    exact ⟨hsk, hnh⟩
  | wPublish =>
    simp only [step] at h
    rcases hsw : s.wphase with _ | ⟨wid, wch, wen⟩ | ⟨wid, wacc, wpend, wen⟩ <;>
      rw [hsw] at h <;> try exact Option.noConfusion h
    try dsimp only at h
    rcases wpend with _ | ⟨c, rest⟩
    · exact Option.noConfusion h
    try dsimp only at h
    rcases hc : fragOf c with _ | t <;> rw [hc] at h <;> cases h <;> exact ⟨hsk, hnh⟩
  | wFinishOk =>
    simp only [step] at h
    rcases hsw : s.wphase with _ | ⟨wid, wch, wen⟩ | ⟨wid, wacc, wpend, wen⟩ <;>
      rw [hsw] at h <;> try exact Option.noConfusion h
    try dsimp only at h
    rcases wpend with _ | ⟨c, rest⟩ <;> rcases wen with _ | msg <;>
      try exact Option.noConfusion h
    cases h
    exact ⟨hsk, hnh⟩
  | wFinishErr =>
    simp only [step] at h
    rcases hsw : s.wphase with _ | ⟨wid, wch, wen⟩ | ⟨wid, wacc, wpend, wen⟩ <;>
      rw [hsw] at h <;> try exact Option.noConfusion h
    try dsimp only at h
    rcases wpend with _ | ⟨c, rest⟩ <;> rcases wen with _ | msg <;>
      try exact Option.noConfusion h
    cases h
    exact ⟨hsk, hnh⟩
  | hStart reqId variantB =>
    simp only [step] at h
    rcases hget : alook s.status_tracker reqId with _ | r <;> rw [hget] at h <;>
      try exact Option.noConfusion h
    try dsimp only at h
    cases h
    refine ⟨hsk, ?_⟩
    intro h0 hh0 hr0
    rcases List.mem_append.1 hh0 with hh0 | hh0
    · exact hnh h0 hh0 hr0
    · obtain rfl : h0 = _ := by simpa using hh0
      dsimp only at hr0
      subst hr0
      exact hns variantB rfl
  | hPoll hid =>
    simp only [step] at h
    rcases hget : s.handlers.get? hid with _ | h0 <;> rw [hget] at h <;>
      try exact Option.noConfusion h
    try dsimp only at h
    rcases hph0 : h0.phase with _ | _ | _ | _ | _ <;> rw [hph0] at h <;>
      try exact Option.noConfusion h
    try dsimp only at h
    rcases hr0 : alook s.status_tracker h0.reqId with _ | r <;> rw [hr0] at h <;>
      try exact Option.noConfusion h
    try dsimp only at h
    have hh0mem : h0 ∈ s.handlers := List.get?_mem hget
    by_cases hq : r.status = .queued
    · rw [if_pos hq] at h
      by_cases hb : h0.variantB
      · rw [if_pos hb] at h
        by_cases hlast : some s.request_queue.length ≠ h0.lastPos
        · rw [if_pos hlast] at h
          cases h
          refine ⟨hsk, ?_⟩
          intro h2 hh2 hr2
          rcases List.mem_or_eq_of_mem_set hh2 with hh2 | rfl
          · exact hnh h2 hh2 hr2
          · exact hnh h0 hh0mem hr2
        · rw [if_neg hlast] at h
          cases h
          exact ⟨hsk, hnh⟩
      · rw [if_neg hb] at h
        cases h
        refine ⟨hsk, ?_⟩
        intro h2 hh2 hr2
        rcases List.mem_or_eq_of_mem_set hh2 with hh2 | rfl
        · exact hnh h2 hh2 hr2
        · exact hnh h0 hh0mem hr2
    · rw [if_neg hq] at h
      exact Option.noConfusion h
  | hExit hid =>
    simp only [step] at h
    rcases hget : s.handlers.get? hid with _ | h0 <;> rw [hget] at h <;>
      try exact Option.noConfusion h
    try dsimp only at h
    rcases hph0 : h0.phase with _ | _ | _ | _ | _ <;> rw [hph0] at h <;>
      try exact Option.noConfusion h
    try dsimp only at h
    rcases hr0 : alook s.status_tracker h0.reqId with _ | r <;> rw [hr0] at h <;>
      try exact Option.noConfusion h
    try dsimp only at h
    have hh0mem : h0 ∈ s.handlers := List.get?_mem hget
    by_cases hq : r.status = .queued
    · rw [if_pos hq] at h
      exact Option.noConfusion h
    · rw [if_neg hq] at h
      by_cases he : r.status = .error
      · rw [if_pos he] at h
        cases h
        refine ⟨hsk, ?_⟩
        intro h2 hh2 hr2
        rcases List.mem_or_eq_of_mem_set hh2 with hh2 | rfl
        · exact hnh h2 hh2 hr2
        · exact hnh h0 hh0mem hr2
      · rw [if_neg he] at h
        cases h
        refine ⟨hsk, ?_⟩
        intro h2 hh2 hr2
        rcases List.mem_or_eq_of_mem_set hh2 with hh2 | rfl
        · exact hnh h2 hh2 hr2
        · exact hnh h0 hh0mem hr2
  | hEnter hid =>
    simp only [step] at h
    rcases hget : s.handlers.get? hid with _ | h0 <;> rw [hget] at h <;>
      try exact Option.noConfusion h
    try dsimp only at h
    rcases hph0 : h0.phase with _ | _ | _ | _ | _ <;> rw [hph0] at h <;>
      try exact Option.noConfusion h
    try dsimp only at h
    have hh0mem : h0 ∈ s.handlers := List.get?_mem hget
    by_cases hin2 : h0.reqId ∈ s.streamKeys
    · rw [if_pos hin2] at h
      cases h
      refine ⟨hsk, ?_⟩
      intro h2 hh2 hr2
      rcases List.mem_or_eq_of_mem_set hh2 with hh2 | rfl
      · exact hnh h2 hh2 hr2
      · exact hnh h0 hh0mem hr2
    · rw [if_neg hin2] at h
      exact Option.noConfusion h
  | hGet hid =>
    simp only [step] at h
    rcases hget : s.handlers.get? hid with _ | h0 <;> rw [hget] at h <;>
      try exact Option.noConfusion h
    try dsimp only at h
    rcases hph0 : h0.phase with _ | _ | _ | _ | _ <;> rw [hph0] at h <;>
      try exact Option.noConfusion h
    try dsimp only at h
    rcases hbuf : alook s.relayBufs h0.reqId with _ | b <;> rw [hbuf] at h <;>
      try exact Option.noConfusion h
    try dsimp only at h
    have hh0mem : h0 ∈ s.handlers := List.get?_mem hget
    rcases b with _ | ⟨c, rest⟩
    · exact Option.noConfusion h
    try dsimp only at h
    rcases c with t | _ | m <;> cases h <;>
    · refine ⟨hsk, ?_⟩
      intro h2 hh2 hr2
      rcases List.mem_or_eq_of_mem_set hh2 with hh2 | rfl
      · exact hnh h2 hh2 hr2
      · exact hnh h0 hh0mem hr2
  | hClean hid =>
    simp only [step] at h
    rcases hget : s.handlers.get? hid with _ | h0 <;> rw [hget] at h <;>
      try exact Option.noConfusion h
    try dsimp only at h
    rcases hph0 : h0.phase with _ | _ | _ | _ | _ <;> rw [hph0] at h <;>
      try exact Option.noConfusion h
    cases h
    have hh0mem : h0 ∈ s.handlers := List.get?_mem hget
    refine ⟨(List.mem_erase_of_ne (fun hh => hnh h0 hh0mem hh.symm)).2 hsk, ?_⟩
    intro h2 hh2 hr2
    rcases List.mem_or_eq_of_mem_set hh2 with hh2 | rfl
    · exact hnh h2 hh2 hr2
    · exact hnh h0 hh0mem hr2

/-- C10: entries of the `stream_chunks` map are removed only by a
streaming handler's final cleanup step, taken after the handler emitted a
terminal event — never by the worker or the admission handlers; hence
the relay entry of a request that no streaming caller ever attaches to is
never removed: it persists through any further execution. -/
theorem C10_relay_entry_lifetime :
    (∀ (l : List Step) (s : ServerState) (st : Step) (s1 : ServerState) (id : Nat),
        runSteps initState l = some s → step s st = some s1 →
        id ∈ s.streamKeys → id ∉ s1.streamKeys →
        ∃ hid h0, st = .hClean hid ∧ s.handlers.get? hid = some h0 ∧ h0.reqId = id
          ∧ h0.phase = .cleanup ∧ endsTerminal h0.events)
    ∧ (∀ (l1 l2 : List Step) (s s2 : ServerState) (id : Nat),
        runSteps initState l1 = some s → id ∈ s.streamKeys →
        (∀ h0 ∈ s.handlers, h0.reqId ≠ id) →
        runSteps s l2 = some s2 →
        (∀ st ∈ l2, ∀ vb, st ≠ .hStart id vb) →
        id ∈ s2.streamKeys) := by
  constructor
  · intro l s st s1 id hrun hstep hin hout
    obtain ⟨hid, h0, rfl, hget, hreq, hph⟩ := step_removes_streamKey hstep hin hout
    have hwf := runSteps_WF WF_initState l hrun
    exact ⟨hid, h0, rfl, hget, hreq, hph, hwf.hclean h0 (List.get?_mem hget) hph⟩
  · intro l1 l2 s s2 id hrun1 hin hnh hrun2 hns
    clear hrun1
    induction l2 generalizing s with
    | nil =>
      obtain rfl : s = s2 := by simpa [runSteps] using hrun2
      exact hin
    | cons st l ih =>
      rw [runSteps] at hrun2
      rcases hst : step s st with _ | s3 <;> rw [hst] at hrun2
      · exact Option.noConfusion hrun2
      · obtain ⟨hin3, hnh3⟩ := step_preserves_noHandler hst hin hnh
          (fun vb => hns st (List.mem_cons_self _ _) vb)
        exact ih s3 hin3 hnh3 hrun2 (fun st2 hst2 => hns st2 (List.mem_cons_of_mem _ hst2))

/-- Witness for C10: a completed request's relay entry is removed by the
attached handler's cleanup step, and with no handler ever attached the
entry survives further admissions. -/
theorem C10_relay_entry_lifetime_witness :
    (∃ s s1, runSteps initState
        [.admitReq "a" [] none, .wDequeue, .wStream, .wFinishOk,
         .hStart 0 false, .hExit 0, .hEnter 0, .hGet 0] = some s
      ∧ step s (.hClean 0) = some s1
      ∧ ∃ hid h0, Step.hClean 0 = .hClean hid ∧ s.handlers.get? hid = some h0
          ∧ h0.reqId = 0 ∧ h0.phase = .cleanup ∧ endsTerminal h0.events)
    ∧ (∃ s s2, runSteps initState [.admitReq "a" [] none, .wDequeue, .wStream, .wFinishOk] = some s
        ∧ runSteps s [.admitReq "b" [] none] = some s2
        ∧ 0 ∈ s2.streamKeys) := by
  constructor
  · refine ⟨_, _, rfl, rfl, ?_⟩
    exact C10_relay_entry_lifetime.1
      [.admitReq "a" [] none, .wDequeue, .wStream, .wFinishOk,
       .hStart 0 false, .hExit 0, .hEnter 0, .hGet 0]
      _ (.hClean 0) _ 0 rfl rfl (by decide) (by decide)
  · refine ⟨_, _, rfl, rfl, ?_⟩
    exact C10_relay_entry_lifetime.2 [.admitReq "a" [] none, .wDequeue, .wStream, .wFinishOk]
      [.admitReq "b" [] none] _ _ 0 rfl (by decide) (by decide) rfl (by decide)

/-!
 ## C3: terminal-event delivery to streaming callers
-/

/-- A variant-A handler for request `0` parked in the
`while request_id not in stream_chunks` loop, having emitted nothing. -/
def stuckHandler : HandlerSt :=
  { reqId := 0, variantB := false, lastPos := none, phase := .waitRelay, events := [] }

/-- Request `0` is gone from the queue, the worker and the
`stream_chunks` map, and handler number `hix` waits for the relay entry
of request `0`.  No step can re-create that entry, so the handler stays
parked. -/
structure StuckInv (hix : Nat) (s : ServerState) : Prop where
  nsk : 0 ∉ s.streamKeys
  nqu : ∀ it ∈ s.request_queue, it.request_id ≠ 0
  nw : workerId s.wphase ≠ some 0
  nid : 0 < s.next_id
  hstk : s.handlers.get? hix = some stuckHandler

theorem stuck_step {hix : Nat} {s s1 : ServerState} {st : Step}
    (hinv : StuckInv hix s) (h : step s st = some s1) : StuckInv hix s1 := by
  obtain ⟨nsk, nqu, nw, nid, hstk⟩ := hinv
  have hstklt : hix < s.handlers.length := (List.get?_eq_some.1 hstk).1
  cases st with
  | admitReq client chunks ending =>
    simp only [step, addToQueue] at h
    cases h
    refine ⟨nsk, ?_, nw, Nat.lt_succ_of_lt nid, hstk⟩
    intro it hit
    rcases List.mem_append.1 hit with hit | hit
    · exact nqu it hit
    · obtain rfl : it = _ := by simpa using hit
      exact Nat.pos_iff_ne_zero.mp nid
  | wDequeue =>
    simp only [step] at h
    rcases hsw : s.wphase with _ | ⟨wid, wch, wen⟩ | ⟨wid, wacc, wpend, wen⟩ <;>
      rw [hsw] at h <;> try exact Option.noConfusion h
    try dsimp only at h
    rcases hqu : s.request_queue with _ | ⟨it, rest⟩ <;> rw [hqu] at h <;>
      try exact Option.noConfusion h
    cases h
    have hitne : it.request_id ≠ 0 := nqu it (by rw [hqu]; exact List.mem_cons_self _ _)
    refine ⟨?_, ?_, ?_, nid, hstk⟩
    · intro hmem
      rcases List.mem_cons.1 hmem with hmem | hmem
      · exact hitne hmem.symm
      · exact nsk hmem
    · intro x hx
      exact nqu x (by rw [hqu]; exact List.mem_cons_of_mem _ hx)
    · simp only [workerId]
      intro hh
      exact hitne (by simpa using hh)
  | wStream =>
    simp only [step] at h
    rcases hsw : s.wphase with _ | ⟨wid, wch, wen⟩ | ⟨wid, wacc, wpend, wen⟩ <;>
      rw [hsw] at h <;> try exact Option.noConfusion h
    try dsimp only at h
    cases h
    rw [hsw] at nw
    exact ⟨nsk, nqu, nw, nid, hstk⟩
  | wPublish =>
    simp only [step] at h
    rcases hsw : s.wphase with _ | ⟨wid, wch, wen⟩ | ⟨wid, wacc, wpend, wen⟩ <;>
      rw [hsw] at h <;> try exact Option.noConfusion h
    try dsimp only at h
    rcases wpend with _ | ⟨c, rest⟩
    · exact Option.noConfusion h
    try dsimp only at h
    rw [hsw] at nw
    rcases hc : fragOf c with _ | t <;> rw [hc] at h <;> cases h <;>
      exact ⟨nsk, nqu, nw, nid, hstk⟩
  | wFinishOk =>
    simp only [step] at h
    rcases hsw : s.wphase with _ | ⟨wid, wch, wen⟩ | ⟨wid, wacc, wpend, wen⟩ <;>
      rw [hsw] at h <;> try exact Option.noConfusion h
    try dsimp only at h
    rcases wpend with _ | ⟨c, rest⟩ <;> rcases wen with _ | msg <;>
      try exact Option.noConfusion h
    cases h
    exact ⟨nsk, nqu, by simp [workerId], nid, hstk⟩
  | wFinishErr =>
    simp only [step] at h
    rcases hsw : s.wphase with _ | ⟨wid, wch, wen⟩ | ⟨wid, wacc, wpend, wen⟩ <;>
      rw [hsw] at h <;> try exact Option.noConfusion h
    try dsimp only at h
    rcases wpend with _ | ⟨c, rest⟩ <;> rcases wen with _ | msg <;>
      try exact Option.noConfusion h
    cases h
    exact ⟨nsk, nqu, by simp [workerId], nid, hstk⟩
  | hStart reqId variantB =>
    simp only [step] at h
    rcases hget : alook s.status_tracker reqId with _ | r <;> rw [hget] at h <;>
      try exact Option.noConfusion h
    try dsimp only at h
    cases h
    refine ⟨nsk, nqu, nw, nid, ?_⟩
    rw [List.get?_append hstklt]
    exact hstk
  | hPoll hid =>
    simp only [step] at h
    rcases hget : s.handlers.get? hid with _ | h0 <;> rw [hget] at h <;>
      try exact Option.noConfusion h
    try dsimp only at h
    by_cases hix2 : hid = hix
    · subst hix2
      rw [hstk] at hget
      obtain rfl : stuckHandler = h0 := by simpa using hget
      rw [show stuckHandler.phase = HPhase.waitRelay from rfl] at h
      exact Option.noConfusion h
    · rcases hph0 : h0.phase with _ | _ | _ | _ | _ <;> rw [hph0] at h <;>
        try exact Option.noConfusion h
      try dsimp only at h
      rcases hr0 : alook s.status_tracker h0.reqId with _ | r <;> rw [hr0] at h <;>
        try exact Option.noConfusion h
      try dsimp only at h
      have hset1 : ∀ hset : HandlerSt,
          (setHandler s.handlers hid hset).get? hix = some stuckHandler := by
        intro hset
        rw [setHandler, List.get?_set_ne _ _ (fun hh => hix2 hh)]
        exact hstk
      by_cases hq : r.status = .queued
      · rw [if_pos hq] at h
        by_cases hb : h0.variantB
        · rw [if_pos hb] at h
          by_cases hlast : some s.request_queue.length ≠ h0.lastPos
          · rw [if_pos hlast] at h
            cases h
            exact ⟨nsk, nqu, nw, nid, hset1 _⟩
          · rw [if_neg hlast] at h
            cases h
            exact ⟨nsk, nqu, nw, nid, hstk⟩
        · rw [if_neg hb] at h
          cases h
          exact ⟨nsk, nqu, nw, nid, hset1 _⟩
      · rw [if_neg hq] at h
        exact Option.noConfusion h
  | hExit hid =>
    simp only [step] at h
    rcases hget : s.handlers.get? hid with _ | h0 <;> rw [hget] at h <;>
      try exact Option.noConfusion h
    try dsimp only at h
    by_cases hix2 : hid = hix
    · subst hix2
      rw [hstk] at hget
      obtain rfl : stuckHandler = h0 := by simpa using hget
      rw [show stuckHandler.phase = HPhase.waitRelay from rfl] at h
      exact Option.noConfusion h
    · rcases hph0 : h0.phase with _ | _ | _ | _ | _ <;> rw [hph0] at h <;>
        try exact Option.noConfusion h
      try dsimp only at h
      rcases hr0 : alook s.status_tracker h0.reqId with _ | r <;> rw [hr0] at h <;>
        try exact Option.noConfusion h
      try dsimp only at h
      have hset1 : ∀ hset : HandlerSt,
          (setHandler s.handlers hid hset).get? hix = some stuckHandler := by
        intro hset
        rw [setHandler, List.get?_set_ne _ _ (fun hh => hix2 hh)]
        exact hstk
      by_cases hq : r.status = .queued
      · rw [if_pos hq] at h
        exact Option.noConfusion h
      · rw [if_neg hq] at h
        by_cases he : r.status = .error
        · rw [if_pos he] at h
          cases h
          exact ⟨nsk, nqu, nw, nid, hset1 _⟩
        · rw [if_neg he] at h
          cases h
          exact ⟨nsk, nqu, nw, nid, hset1 _⟩
  | hEnter hid =>
    simp only [step] at h
    rcases hget : s.handlers.get? hid with _ | h0 <;> rw [hget] at h <;>
      try exact Option.noConfusion h
    try dsimp only at h
    by_cases hix2 : hid = hix
    · subst hix2
      rw [hstk] at hget
      obtain rfl : stuckHandler = h0 := by simpa using hget
      rw [show stuckHandler.phase = HPhase.waitRelay from rfl] at h
      try dsimp only at h
      rw [if_neg (by exact nsk)] at h
      exact Option.noConfusion h
    · rcases hph0 : h0.phase with _ | _ | _ | _ | _ <;> rw [hph0] at h <;>
        try exact Option.noConfusion h
      try dsimp only at h
      have hset1 : ∀ hset : HandlerSt,
          (setHandler s.handlers hid hset).get? hix = some stuckHandler := by
        intro hset
        rw [setHandler, List.get?_set_ne _ _ (fun hh => hix2 hh)]
        exact hstk
      by_cases hin2 : h0.reqId ∈ s.streamKeys
      · rw [if_pos hin2] at h
        cases h
        exact ⟨nsk, nqu, nw, nid, hset1 _⟩
      · rw [if_neg hin2] at h
        exact Option.noConfusion h
  | hGet hid =>
    simp only [step] at h
    rcases hget : s.handlers.get? hid with _ | h0 <;> rw [hget] at h <;>
      try exact Option.noConfusion h
    try dsimp only at h
    by_cases hix2 : hid = hix
    · subst hix2
      rw [hstk] at hget
      obtain rfl : stuckHandler = h0 := by simpa using hget
      rw [show stuckHandler.phase = HPhase.waitRelay from rfl] at h
      exact Option.noConfusion h
    · rcases hph0 : h0.phase with _ | _ | _ | _ | _ <;> rw [hph0] at h <;>
        try exact Option.noConfusion h
      try dsimp only at h
      rcases hbuf : alook s.relayBufs h0.reqId with _ | b <;> rw [hbuf] at h <;>
        try exact Option.noConfusion h
      try dsimp only at h
      have hset1 : ∀ hset : HandlerSt,
          (setHandler s.handlers hid hset).get? hix = some stuckHandler := by
        intro hset
        rw [setHandler, List.get?_set_ne _ _ (fun hh => hix2 hh)]
        exact hstk
      rcases b with _ | ⟨c, rest⟩
      · exact Option.noConfusion h
      try dsimp only at h
      rcases c with t | _ | m <;> cases h <;> exact ⟨nsk, nqu, nw, nid, hset1 _⟩
  | hClean hid =>
    simp only [step] at h
    rcases hget : s.handlers.get? hid with _ | h0 <;> rw [hget] at h <;>
      try exact Option.noConfusion h
    try dsimp only at h
    by_cases hix2 : hid = hix
    · subst hix2
      rw [hstk] at hget
      obtain rfl : stuckHandler = h0 := by simpa using hget
      rw [show stuckHandler.phase = HPhase.waitRelay from rfl] at h
      exact Option.noConfusion h
    · rcases hph0 : h0.phase with _ | _ | _ | _ | _ <;> rw [hph0] at h <;>
        try exact Option.noConfusion h
      cases h
      have hset1 : ∀ hset : HandlerSt,
          (setHandler s.handlers hid hset).get? hix = some stuckHandler := by
        intro hset
        rw [setHandler, List.get?_set_ne _ _ (fun hh => hix2 hh)]
        exact hstk
      refine ⟨?_, nqu, nw, nid, hset1 _⟩
      intro hmem
      exact nsk (List.mem_of_mem_erase hmem)

theorem stuck_run {hix : Nat} {s : ServerState} (hinv : StuckInv hix s) (l : List Step) :
    ∀ {s1 : ServerState}, runSteps s l = some s1 → StuckInv hix s1 := by
  induction l generalizing s with
  | nil =>
    intro s1 h
    obtain rfl : s = s1 := by simpa [runSteps] using h
    exact hinv
  | cons st l ih =>
    intro s1 h
    rw [runSteps] at h
    rcases hst : step s st with _ | s2 <;> rw [hst] at h
    · exact Option.noConfusion h
    · exact ih (stuck_step hinv hst) h

/-- A run in which request 0 is admitted, processed to "complete", fully
streamed by one caller (which deletes the relay entry), and then a second
caller attaches to the same identifier and reaches the wait-for-relay
loop. -/
def c3Trace : List Step :=
  [.admitReq "a" [⟨[some "hi"]⟩] none, .wDequeue, .wStream, .wPublish, .wFinishOk,
   .hStart 0 false, .hExit 0, .hEnter 0, .hGet 0, .hGet 0, .hClean 0,
   .hStart 0 false, .hExit 1]

/-- C3 counterexample: the claim says a caller that attaches after the
request already reached a terminal state still terminates rather than
hanging.  After `c3Trace`, request 0 is "complete" and was already
streamed once, so `del stream_chunks[0]` has run; the late caller
(handler number 1) sits in `while request_id not in stream_chunks:
await sleep(0.1)` having emitted no event, and in EVERY continuation of
the execution it remains in that state: it never receives a terminal
event — it hangs. -/
theorem C3_cex_late_attacher_hangs :
    ∃ sStar,
      runSteps initState c3Trace = some sStar
      ∧ (alook sStar.status_tracker 0).map (fun r => (r.status, r.result)) =
          some (.complete, some "hi")
      ∧ sStar.handlers.get? 1 = some stuckHandler
      ∧ ∀ (l : List Step) (s2 : ServerState), runSteps sStar l = some s2 →
          s2.handlers.get? 1 = some stuckHandler := by
  refine ⟨_, rfl, by decide, by decide, ?_⟩
  intro l s2 h
  exact (stuck_run ⟨by decide, by decide, by decide, by decide, by decide⟩ l h).hstk

theorem drainEvents_frags_done (fs : List String) :
    drainEvents (fs.map Chunk.frag ++ [Chunk.done]) = fs.map HEvent.chunkE ++ [HEvent.doneA] := by
  induction fs with
  | nil => rfl
  | cons t rest ih => simpa [drainEvents] using ih

theorem drainEvents_frags_err (fs : List String) (m : String) :
    drainEvents (fs.map Chunk.frag ++ [Chunk.errMark m]) =
      fs.map HEvent.chunkE ++ [HEvent.errE (some m)] := by
  induction fs with
  | nil => rfl
  | cons t rest ih => simpa [drainEvents] using ih

theorem chunk_events_one_terminal (fs : List String) (e : HEvent)
    (he : isTerminalEvent e = true) :
    ((fs.map HEvent.chunkE ++ [e]).filter isTerminalEvent).length = 1 := by
  induction fs with
  | nil => simp [List.filter, he]
  | cons t rest ih => simpa [List.filter, isTerminalEvent] using ih

/-- C3 (amended): a streaming caller that drains the relay channel
receives one chunk event per fragment followed by exactly one terminal
event (done on success, error on failure) and the stream then ends; but
the terminal marker and the relay map entry are consumed destructively,
so a caller that attaches after the relay entry has been deleted waits in
the relay-wait loop forever and never receives a terminal event (and with
several concurrent callers for one identifier at most one can drain the
terminal marker). -/
theorem C3_terminal_event_delivery :
    (∀ (fs : List String) (m : String),
        drainEvents (fs.map Chunk.frag ++ [Chunk.done]) = fs.map HEvent.chunkE ++ [HEvent.doneA]
        ∧ drainEvents (fs.map Chunk.frag ++ [Chunk.errMark m]) =
            fs.map HEvent.chunkE ++ [HEvent.errE (some m)]
        ∧ ((fs.map HEvent.chunkE ++ [HEvent.doneA]).filter isTerminalEvent).length = 1
        ∧ ((fs.map HEvent.chunkE ++ [HEvent.errE (some m)]).filter isTerminalEvent).length = 1)
    ∧ (∃ sStar, runSteps initState c3Trace = some sStar
        ∧ ∀ (l : List Step) (s2 : ServerState), runSteps sStar l = some s2 →
            s2.handlers.get? 1 = some stuckHandler) := by
  constructor
  · intro fs m
    exact ⟨drainEvents_frags_done fs, drainEvents_frags_err fs m,
      chunk_events_one_terminal fs _ rfl, chunk_events_one_terminal fs _ rfl⟩
  · refine ⟨_, rfl, ?_⟩
    intro l s2 h
    exact (stuck_run ⟨by decide, by decide, by decide, by decide, by decide⟩ l h).hstk

/-- Witness for C3 (amended) at concrete inputs. -/
theorem C3_terminal_event_delivery_witness :
    drainEvents (["hi"].map Chunk.frag ++ [Chunk.done]) = ["hi"].map HEvent.chunkE ++ [HEvent.doneA]
    ∧ ∃ sStar, runSteps initState c3Trace = some sStar
        ∧ sStar.handlers.get? 1 = some stuckHandler := by
  obtain ⟨h1, h2⟩ := C3_terminal_event_delivery
  obtain ⟨sStar, hrun, hstuck⟩ := h2
  exact ⟨(h1 ["hi"] "x").1, sStar, hrun, hstuck [] sStar rfl⟩

/-!
 ## C2: strict FIFO service order
-/

/-- The identifier an admission step enqueues in state `s`. -/
def enqContrib (st : Step) (s : ServerState) : List Nat :=
  match st with
  | .admitReq _ _ _ => [s.next_id]
  | _ => []

/-- The identifier a dequeue step removes from the queue in state `s`. -/
def deqContrib (st : Step) (s : ServerState) : List Nat :=
  match st, s.request_queue with
  | .wDequeue, it :: _ => [it.request_id]
  | _, _ => []

/-- The identifier a worker finish step drives to a terminal state. -/
def termContrib (st : Step) (s : ServerState) : List Nat :=
  match st, s.wphase with
  | .wFinishOk, .streaming id _ _ _ => [id]
  | .wFinishErr, .streaming id _ _ _ => [id]
  | _, _ => []

/-- The request the worker currently holds, as a list. -/
def widList (w : WPhase) : List Nat :=
  match w with
  | .idle => []
  | .calling id _ _ => [id]
  | .streaming id _ _ _ => [id]

/-- The identifiers enqueued along a run, in order. -/
def enqIds (s : ServerState) : List Step → List Nat
  | [] => []
  | st :: l =>
    match step s st with
    | none => []
    | some s1 => enqContrib st s ++ enqIds s1 l

/-- The identifiers dequeued along a run, in order. -/
def deqIds (s : ServerState) : List Step → List Nat
  | [] => []
  | st :: l =>
    match step s st with
    | none => []
    | some s1 => deqContrib st s ++ deqIds s1 l

/-- The identifiers driven to a terminal state along a run, in order. -/
def termIds (s : ServerState) : List Step → List Nat
  | [] => []
  | st :: l =>
    match step s st with
    | none => []
    | some s1 => termContrib st s ++ termIds s1 l

theorem step_effects {s s1 : ServerState} {st : Step} (h : step s st = some s1) :
    s1.next_id = (match st with | .admitReq _ _ _ => s.next_id + 1 | _ => s.next_id)
    ∧ deqContrib st s ++ s1.request_queue.map QueueItem.request_id
        = s.request_queue.map QueueItem.request_id ++ enqContrib st s
    ∧ termContrib st s ++ widList s1.wphase = widList s.wphase ++ deqContrib st s := by
  cases st with
  | admitReq client chunks ending =>
    simp only [step, addToQueue] at h
    cases h
    refine ⟨rfl, ?_, ?_⟩ <;> simp [deqContrib, enqContrib, termContrib, widList]
  | wDequeue =>
    simp only [step] at h
    rcases hsw : s.wphase with _ | ⟨wid, wch, wen⟩ | ⟨wid, wacc, wpend, wen⟩ <;>
      rw [hsw] at h <;> try exact Option.noConfusion h
    try dsimp only at h
    rcases hqu : s.request_queue with _ | ⟨it, rest⟩ <;> rw [hqu] at h <;>
      try exact Option.noConfusion h
    cases h
    refine ⟨rfl, ?_, ?_⟩ <;> simp [deqContrib, enqContrib, termContrib, widList, hsw, hqu]
  | wStream =>
    simp only [step] at h
    rcases hsw : s.wphase with _ | ⟨wid, wch, wen⟩ | ⟨wid, wacc, wpend, wen⟩ <;>
      rw [hsw] at h <;> try exact Option.noConfusion h
    try dsimp only at h
    cases h
    refine ⟨rfl, ?_, ?_⟩ <;> simp [deqContrib, enqContrib, termContrib, widList, hsw]
  | wPublish =>
    simp only [step] at h
    rcases hsw : s.wphase with _ | ⟨wid, wch, wen⟩ | ⟨wid, wacc, wpend, wen⟩ <;>
      rw [hsw] at h <;> try exact Option.noConfusion h
    try dsimp only at h
    rcases wpend with _ | ⟨c, rest⟩
    · exact Option.noConfusion h
    try dsimp only at h
    rcases hc : fragOf c with _ | t <;> rw [hc] at h <;> cases h <;>
      refine ⟨rfl, ?_, ?_⟩ <;> simp [deqContrib, enqContrib, termContrib, widList, hsw]
  | wFinishOk =>
    simp only [step] at h
    rcases hsw : s.wphase with _ | ⟨wid, wch, wen⟩ | ⟨wid, wacc, wpend, wen⟩ <;>
      rw [hsw] at h <;> try exact Option.noConfusion h
    try dsimp only at h
    rcases wpend with _ | ⟨c, rest⟩ <;> rcases wen with _ | msg <;>
      try exact Option.noConfusion h
    cases h
    refine ⟨rfl, ?_, ?_⟩ <;> simp [deqContrib, enqContrib, termContrib, widList, hsw]
  | wFinishErr =>
    simp only [step] at h
    rcases hsw : s.wphase with _ | ⟨wid, wch, wen⟩ | ⟨wid, wacc, wpend, wen⟩ <;>
      rw [hsw] at h <;> try exact Option.noConfusion h
    try dsimp only at h
    rcases wpend with _ | ⟨c, rest⟩ <;> rcases wen with _ | msg <;>
      try exact Option.noConfusion h
    cases h
    refine ⟨rfl, ?_, ?_⟩ <;> simp [deqContrib, enqContrib, termContrib, widList, hsw]
  | hStart reqId variantB =>
    simp only [step] at h
    rcases hget : alook s.status_tracker reqId with _ | r <;> rw [hget] at h <;>
      try exact Option.noConfusion h
    try dsimp only at h
    cases h
    refine ⟨rfl, ?_, ?_⟩ <;> simp [deqContrib, enqContrib, termContrib, widList]
  | hPoll hid =>
    simp only [step] at h
    rcases hget : s.handlers.get? hid with _ | h0 <;> rw [hget] at h <;>
      try exact Option.noConfusion h
    try dsimp only at h
    rcases hph0 : h0.phase with _ | _ | _ | _ | _ <;> rw [hph0] at h <;>
      try exact Option.noConfusion h
    try dsimp only at h
    rcases hr0 : alook s.status_tracker h0.reqId with _ | r <;> rw [hr0] at h <;>
      try exact Option.noConfusion h
    try dsimp only at h
    by_cases hq : r.status = .queued
    · rw [if_pos hq] at h
      by_cases hb : h0.variantB
      · rw [if_pos hb] at h
        by_cases hlast : some s.request_queue.length ≠ h0.lastPos
        · rw [if_pos hlast] at h
          cases h
          refine ⟨rfl, ?_, ?_⟩ <;> simp [deqContrib, enqContrib, termContrib, widList]
        · rw [if_neg hlast] at h
          cases h
          refine ⟨rfl, ?_, ?_⟩ <;> simp [deqContrib, enqContrib, termContrib, widList]
      · rw [if_neg hb] at h
        cases h
        refine ⟨rfl, ?_, ?_⟩ <;> simp [deqContrib, enqContrib, termContrib, widList]
    · rw [if_neg hq] at h
      exact Option.noConfusion h
  | hExit hid =>
    simp only [step] at h
    rcases hget : s.handlers.get? hid with _ | h0 <;> rw [hget] at h <;>
      try exact Option.noConfusion h
    try dsimp only at h
    rcases hph0 : h0.phase with _ | _ | _ | _ | _ <;> rw [hph0] at h <;>
      try exact Option.noConfusion h
    try dsimp only at h
    rcases hr0 : alook s.status_tracker h0.reqId with _ | r <;> rw [hr0] at h <;>
      try exact Option.noConfusion h
    try dsimp only at h
    by_cases hq : r.status = .queued
    · rw [if_pos hq] at h
      exact Option.noConfusion h
    · rw [if_neg hq] at h
      by_cases he : r.status = .error
      · rw [if_pos he] at h
        cases h
        refine ⟨rfl, ?_, ?_⟩ <;> simp [deqContrib, enqContrib, termContrib, widList]
      · rw [if_neg he] at h
        cases h
        refine ⟨rfl, ?_, ?_⟩ <;> simp [deqContrib, enqContrib, termContrib, widList]
  | hEnter hid =>
    simp only [step] at h
    rcases hget : s.handlers.get? hid with _ | h0 <;> rw [hget] at h <;>
      try exact Option.noConfusion h
    try dsimp only at h
    rcases hph0 : h0.phase with _ | _ | _ | _ | _ <;> rw [hph0] at h <;>
      try exact Option.noConfusion h
    try dsimp only at h
    by_cases hin2 : h0.reqId ∈ s.streamKeys
    · rw [if_pos hin2] at h
      cases h
      refine ⟨rfl, ?_, ?_⟩ <;> simp [deqContrib, enqContrib, termContrib, widList]
    · rw [if_neg hin2] at h
      exact Option.noConfusion h
  | hGet hid =>
    simp only [step] at h
    rcases hget : s.handlers.get? hid with _ | h0 <;> rw [hget] at h <;>
      try exact Option.noConfusion h
    try dsimp only at h
    rcases hph0 : h0.phase with _ | _ | _ | _ | _ <;> rw [hph0] at h <;>
      try exact Option.noConfusion h
    try dsimp only at h
    rcases hbuf : alook s.relayBufs h0.reqId with _ | b <;> rw [hbuf] at h <;>
      try exact Option.noConfusion h
    try dsimp only at h
    rcases b with _ | ⟨c, rest⟩
    · exact Option.noConfusion h
    try dsimp only at h
    rcases c with t | _ | m <;> cases h <;>
      refine ⟨rfl, ?_, ?_⟩ <;> simp [deqContrib, enqContrib, termContrib, widList]
  | hClean hid =>
    simp only [step] at h
    rcases hget : s.handlers.get? hid with _ | h0 <;> rw [hget] at h <;>
      try exact Option.noConfusion h
    try dsimp only at h
    rcases hph0 : h0.phase with _ | _ | _ | _ | _ <;> rw [hph0] at h <;>
      try exact Option.noConfusion h
    cases h
    refine ⟨rfl, ?_, ?_⟩ <;> simp [deqContrib, enqContrib, termContrib, widList]

theorem step_next_id_mono {s s1 : ServerState} {st : Step} (h : step s st = some s1) :
    s.next_id ≤ s1.next_id := by
  rw [(step_effects h).1]
  cases st <;> simp

theorem runSteps_next_id_mono (l : List Step) :
    ∀ {s s1 : ServerState}, runSteps s l = some s1 → s.next_id ≤ s1.next_id := by
  induction l with
  | nil =>
    intro s s1 h
    obtain rfl : s = s1 := by simpa [runSteps] using h
    exact Nat.le_refl _
  | cons st l ih =>
    intro s s1 h
    rw [runSteps] at h
    rcases hst : step s st with _ | s2 <;> rw [hst] at h
    · exact Option.noConfusion h
    · exact Nat.le_trans (step_next_id_mono hst) (ih h)

theorem queue_acct (l : List Step) :
    ∀ {s s1 : ServerState}, runSteps s l = some s1 →
      deqIds s l ++ s1.request_queue.map QueueItem.request_id
        = s.request_queue.map QueueItem.request_id ++ enqIds s l := by
  induction l with
  | nil =>
    intro s s1 h
    obtain rfl : s = s1 := by simpa [runSteps] using h
    simp [deqIds, enqIds]
  | cons st l ih =>
    intro s s1 h
    rw [runSteps] at h
    rcases hst : step s st with _ | s2 <;> rw [hst] at h
    · exact Option.noConfusion h
    · rw [deqIds, enqIds, hst]
      rw [List.append_assoc, ih h, ← List.append_assoc, (step_effects hst).2.1,
        List.append_assoc]

theorem worker_acct (l : List Step) :
    ∀ {s s1 : ServerState}, runSteps s l = some s1 →
      termIds s l ++ widList s1.wphase = widList s.wphase ++ deqIds s l := by
  induction l with
  | nil =>
    intro s s1 h
    obtain rfl : s = s1 := by simpa [runSteps] using h
    simp [termIds, deqIds]
  | cons st l ih =>
    intro s s1 h
    rw [runSteps] at h
    rcases hst : step s st with _ | s2 <;> rw [hst] at h
    · exact Option.noConfusion h
    · rw [termIds, deqIds, hst]
      rw [List.append_assoc, ih h, ← List.append_assoc, (step_effects hst).2.2,
        List.append_assoc]

theorem enq_sorted (l : List Step) :
    ∀ {s s1 : ServerState}, runSteps s l = some s1 →
      (∀ x ∈ enqIds s l, s.next_id ≤ x) ∧ List.Pairwise (· < ·) (enqIds s l) := by
  induction l with
  | nil =>
    intro s s1 h
    simp [enqIds]
  | cons st l ih =>
    intro s s1 h
    rw [runSteps] at h
    rcases hst : step s st with _ | s2 <;> rw [hst] at h
    · exact Option.noConfusion h
    · obtain ⟨ihb, ihp⟩ := ih h
      have hmono : s.next_id ≤ s2.next_id := step_next_id_mono hst
      simp only [enqIds, hst]
      have hadm : (∃ c ch e, st = Step.admitReq c ch e) ∨ enqContrib st s = [] := by
        cases st <;> first | exact Or.inl ⟨_, _, _, rfl⟩ | exact Or.inr rfl
      rcases hadm with ⟨c, ch, e, rfl⟩ | hnil
      · have hnid : s2.next_id = s.next_id + 1 := (step_effects hst).1
        have hgt : ∀ y ∈ enqIds s2 l, s.next_id < y := by
          intro y hy
          have := ihb y hy
          omega
        constructor
        · intro x hx
          rcases List.mem_append.1 hx with hx | hx
          · obtain rfl : x = s.next_id := by simpa [enqContrib] using hx
            exact Nat.le_refl _
          · exact Nat.le_of_lt (hgt x hx)
        · show List.Pairwise (· < ·) (enqContrib (Step.admitReq c ch e) s ++ enqIds s2 l)
          rw [show enqContrib (Step.admitReq c ch e) s = [s.next_id] from rfl, List.pairwise_append]
          refine ⟨List.pairwise_singleton _ _, ihp, ?_⟩
          intro x hx y hy
          obtain rfl : x = s.next_id := by simpa using hx
          exact hgt y hy
      · rw [hnil, List.nil_append]
        refine ⟨?_, ihp⟩
        intro x hx
        exact Nat.le_trans hmono (ihb x hx)

theorem enqIds_append (l1 : List Step) :
    ∀ {s s1 : ServerState} (l2 : List Step), runSteps s l1 = some s1 →
      enqIds s (l1 ++ l2) = enqIds s l1 ++ enqIds s1 l2 := by
  induction l1 with
  | nil =>
    intro s s1 l2 h
    obtain rfl : s = s1 := by simpa [runSteps] using h
    simp [enqIds]
  | cons st l ih =>
    intro s s1 l2 h
    rw [runSteps] at h
    rcases hst : step s st with _ | s2 <;> rw [hst] at h
    · exact Option.noConfusion h
    · simp only [List.cons_append, enqIds, hst]
      try dsimp only at h
      show enqContrib st s ++ enqIds s2 (l ++ l2) = enqContrib st s ++ enqIds s2 l ++ enqIds s1 l2
      rw [ih l2 h, List.append_assoc]

theorem step_terminal_persist {s s1 : ServerState} {st : Step} {id : Nat} {r : RequestStatus}
    (hwf : WF s) (h : step s st = some s1)
    (hal : alook s.status_tracker id = some r)
    (ht : r.status = .complete ∨ r.status = .error) :
    alook s1.status_tracker id = some r := by
  have hterm_ne_queued : r.status ≠ .queued := by
    rcases ht with ht | ht <;> rw [ht] <;> intro hh <;> exact LState.noConfusion hh
  have hterm_ne_proc : r.status ≠ .processing := by
    rcases ht with ht | ht <;> rw [ht] <;> intro hh <;> exact LState.noConfusion hh
  cases st with
  | admitReq client chunks ending =>
    simp only [step, addToQueue] at h
    cases h
    have hne : id ≠ s.next_id :=
      Nat.ne_of_lt (hwf.tkLt id (alook_key_mem hal))
    show alook (aset s.status_tracker s.next_id _) id = some r
    rw [alook_aset_ne _ _ _ _ hne]
    exact hal
  | wDequeue =>
    simp only [step] at h
    rcases hsw : s.wphase with _ | ⟨wid, wch, wen⟩ | ⟨wid, wacc, wpend, wen⟩ <;>
      rw [hsw] at h <;> try exact Option.noConfusion h
    try dsimp only at h
    rcases hqu : s.request_queue with _ | ⟨it, rest⟩ <;> rw [hqu] at h <;>
      try exact Option.noConfusion h
    cases h
    obtain ⟨r0, hr0, hr0q⟩ := hwf.quQueued it (by rw [hqu]; exact List.mem_cons_self _ _)
    have hne : id ≠ it.request_id := by
      intro hh
      rw [← hh, hal] at hr0
      obtain rfl : r = r0 := by simpa using hr0
      exact hterm_ne_queued hr0q
    dsimp only
    rw [alook_amod_ne _ _ _ _ hne]
    exact hal
  | wStream =>
    simp only [step] at h
    rcases hsw : s.wphase with _ | ⟨wid, wch, wen⟩ | ⟨wid, wacc, wpend, wen⟩ <;>
      rw [hsw] at h <;> try exact Option.noConfusion h
    try dsimp only at h
    cases h
    exact hal
  | wPublish =>
    simp only [step] at h
    rcases hsw : s.wphase with _ | ⟨wid, wch, wen⟩ | ⟨wid, wacc, wpend, wen⟩ <;>
      rw [hsw] at h <;> try exact Option.noConfusion h
    try dsimp only at h
    rcases wpend with _ | ⟨c, rest⟩
    · exact Option.noConfusion h
    try dsimp only at h
    rcases hc : fragOf c with _ | t <;> rw [hc] at h <;> cases h <;> exact hal
  | wFinishOk =>
    simp only [step] at h
    rcases hsw : s.wphase with _ | ⟨wid, wch, wen⟩ | ⟨wid, wacc, wpend, wen⟩ <;>
      rw [hsw] at h <;> try exact Option.noConfusion h
    try dsimp only at h
    rcases wpend with _ | ⟨c, rest⟩ <;> rcases wen with _ | msg <;>
      try exact Option.noConfusion h
    cases h
    have hph := hwf.phase
    simp only [phaseInv, hsw] at hph
    obtain ⟨_, ⟨r0, hr0, hr0p⟩, _, _, _⟩ := hph
    have hne : id ≠ wid := by
      intro hh
      rw [← hh, hal] at hr0
      obtain rfl : r = r0 := by simpa using hr0
      exact hterm_ne_proc hr0p
    dsimp only
    rw [alook_amod_ne _ _ _ _ hne]
    exact hal
  | wFinishErr =>
    simp only [step] at h
    rcases hsw : s.wphase with _ | ⟨wid, wch, wen⟩ | ⟨wid, wacc, wpend, wen⟩ <;>
      rw [hsw] at h <;> try exact Option.noConfusion h
    try dsimp only at h
    rcases wpend with _ | ⟨c, rest⟩ <;> rcases wen with _ | msg <;>
      try exact Option.noConfusion h
    cases h
    have hph := hwf.phase
    simp only [phaseInv, hsw] at hph
    obtain ⟨_, ⟨r0, hr0, hr0p⟩, _, _, _⟩ := hph
    have hne : id ≠ wid := by
      intro hh
      rw [← hh, hal] at hr0
      obtain rfl : r = r0 := by simpa using hr0
      exact hterm_ne_proc hr0p
    dsimp only
    rw [alook_amod_ne _ _ _ _ hne]
    exact hal
  | hStart reqId variantB =>
    simp only [step] at h
    rcases hget : alook s.status_tracker reqId with _ | r0 <;> rw [hget] at h <;>
      try exact Option.noConfusion h
    try dsimp only at h
    cases h
    exact hal
  | hPoll hid =>
    simp only [step] at h
    rcases hget : s.handlers.get? hid with _ | h0 <;> rw [hget] at h <;>
      try exact Option.noConfusion h
    try dsimp only at h
    rcases hph0 : h0.phase with _ | _ | _ | _ | _ <;> rw [hph0] at h <;>
      try exact Option.noConfusion h
    try dsimp only at h
    rcases hr0 : alook s.status_tracker h0.reqId with _ | r0 <;> rw [hr0] at h <;>
      try exact Option.noConfusion h
    try dsimp only at h
    by_cases hq : r0.status = .queued
    · rw [if_pos hq] at h
      by_cases hb : h0.variantB
      · rw [if_pos hb] at h
        by_cases hlast : some s.request_queue.length ≠ h0.lastPos
        · rw [if_pos hlast] at h
          cases h
          exact hal
        · rw [if_neg hlast] at h
          cases h
          exact hal
      · rw [if_neg hb] at h
        cases h
        exact hal
    · rw [if_neg hq] at h
      exact Option.noConfusion h
  | hExit hid =>
    simp only [step] at h
    rcases hget : s.handlers.get? hid with _ | h0 <;> rw [hget] at h <;>
      try exact Option.noConfusion h
    try dsimp only at h
    rcases hph0 : h0.phase with _ | _ | _ | _ | _ <;> rw [hph0] at h <;>
      try exact Option.noConfusion h
    try dsimp only at h
    rcases hr0 : alook s.status_tracker h0.reqId with _ | r0 <;> rw [hr0] at h <;>
      try exact Option.noConfusion h
    try dsimp only at h
    by_cases hq : r0.status = .queued
    · rw [if_pos hq] at h
      exact Option.noConfusion h
    · rw [if_neg hq] at h
      by_cases he : r0.status = .error
      · rw [if_pos he] at h
        cases h
        exact hal
      · rw [if_neg he] at h
        cases h
        exact hal
  | hEnter hid =>
    simp only [step] at h
    rcases hget : s.handlers.get? hid with _ | h0 <;> rw [hget] at h <;>
      try exact Option.noConfusion h
    try dsimp only at h
    rcases hph0 : h0.phase with _ | _ | _ | _ | _ <;> rw [hph0] at h <;>
      try exact Option.noConfusion h
    try dsimp only at h
    by_cases hin2 : h0.reqId ∈ s.streamKeys
    · rw [if_pos hin2] at h
      cases h
      exact hal
    · rw [if_neg hin2] at h
      exact Option.noConfusion h
  | hGet hid =>
    simp only [step] at h
    rcases hget : s.handlers.get? hid with _ | h0 <;> rw [hget] at h <;>
      try exact Option.noConfusion h
    try dsimp only at h
    rcases hph0 : h0.phase with _ | _ | _ | _ | _ <;> rw [hph0] at h <;>
      try exact Option.noConfusion h
    try dsimp only at h
    rcases hbuf : alook s.relayBufs h0.reqId with _ | b <;> rw [hbuf] at h <;>
      try exact Option.noConfusion h
    try dsimp only at h
    rcases b with _ | ⟨c, rest⟩
    · exact Option.noConfusion h
    try dsimp only at h
    rcases c with t | _ | m <;> cases h <;> exact hal
  | hClean hid =>
    simp only [step] at h
    rcases hget : s.handlers.get? hid with _ | h0 <;> rw [hget] at h <;>
      try exact Option.noConfusion h
    try dsimp only at h
    rcases hph0 : h0.phase with _ | _ | _ | _ | _ <;> rw [hph0] at h <;>
      try exact Option.noConfusion h
    cases h
    exact hal

theorem runSteps_terminal_persist (l : List Step) :
    ∀ {s s1 : ServerState} {id : Nat} {r : RequestStatus},
      WF s → runSteps s l = some s1 → alook s.status_tracker id = some r →
      (r.status = .complete ∨ r.status = .error) →
      alook s1.status_tracker id = some r := by
  induction l with
  | nil =>
    intro s s1 id r _ h hal _
    obtain rfl : s = s1 := by simpa [runSteps] using h
    exact hal
  | cons st l ih =>
    intro s s1 id r hwf h hal ht
    rw [runSteps] at h
    rcases hst : step s st with _ | s2 <;> rw [hst] at h
    · exact Option.noConfusion h
    · exact ih (step_WF hwf hst) h (step_terminal_persist hwf hst hal ht) ht

theorem step_term_terminal {s s1 : ServerState} {st : Step}
    (hwf : WF s) (h : step s st = some s1) :
    ∀ id ∈ termContrib st s,
      ∃ r, alook s1.status_tracker id = some r ∧ (r.status = .complete ∨ r.status = .error) := by
  intro id hid
  cases st with
  | wFinishOk =>
    simp only [step] at h
    rcases hsw : s.wphase with _ | ⟨wid, wch, wen⟩ | ⟨wid, wacc, wpend, wen⟩ <;>
      rw [hsw] at h <;> try exact Option.noConfusion h
    try dsimp only at h
    rcases wpend with _ | ⟨c, rest⟩ <;> rcases wen with _ | msg <;>
      try exact Option.noConfusion h
    cases h
    obtain rfl : id = wid := by simpa [termContrib, hsw] using hid
    have hph := hwf.phase
    simp only [phaseInv, hsw] at hph
    obtain ⟨_, ⟨r0, hr0, _⟩, _, _, _⟩ := hph
    refine ⟨{ r0 with status := .complete, completed_at := some s.clock, result := some wacc },
      ?_, Or.inl rfl⟩
    dsimp only
    rw [alook_amod_self, hr0]
    rfl
  | wFinishErr =>
    simp only [step] at h
    rcases hsw : s.wphase with _ | ⟨wid, wch, wen⟩ | ⟨wid, wacc, wpend, wen⟩ <;>
      rw [hsw] at h <;> try exact Option.noConfusion h
    try dsimp only at h
    rcases wpend with _ | ⟨c, rest⟩ <;> rcases wen with _ | msg <;>
      try exact Option.noConfusion h
    cases h
    obtain rfl : id = wid := by simpa [termContrib, hsw] using hid
    have hph := hwf.phase
    simp only [phaseInv, hsw] at hph
    obtain ⟨_, ⟨r0, hr0, _⟩, _, _, _⟩ := hph
    refine ⟨{ r0 with status := .error, completed_at := some s.clock, error := some msg },
      ?_, Or.inr rfl⟩
    dsimp only
    rw [alook_amod_self, hr0]
    rfl
  | admitReq client chunks ending => simp [termContrib] at hid
  | wDequeue => simp [termContrib] at hid
  | wStream => simp [termContrib] at hid
  | wPublish => simp [termContrib] at hid
  | hStart reqId variantB => simp [termContrib] at hid
  | hPoll hid2 => simp [termContrib] at hid
  | hExit hid2 => simp [termContrib] at hid
  | hEnter hid2 => simp [termContrib] at hid
  | hGet hid2 => simp [termContrib] at hid
  | hClean hid2 => simp [termContrib] at hid

theorem termIds_terminal (l : List Step) :
    ∀ {s s1 : ServerState}, WF s → runSteps s l = some s1 →
      ∀ id ∈ termIds s l,
        ∃ r, alook s1.status_tracker id = some r ∧ (r.status = .complete ∨ r.status = .error) := by
  induction l with
  | nil =>
    intro s s1 _ _ id hid
    simp [termIds] at hid
  | cons st l ih =>
    intro s s1 hwf h id hid
    rw [runSteps] at h
    rcases hst : step s st with _ | s2 <;> rw [hst] at h
    · exact Option.noConfusion h
    · simp only [termIds, hst] at hid
      rcases List.mem_append.1 hid with hid | hid
      · obtain ⟨r, hr, ht⟩ := step_term_terminal hwf hst id hid
        exact ⟨r, runSteps_terminal_persist l (step_WF hwf hst) h hr ht, ht⟩
      · exact ih (step_WF hwf hst) h id hid

theorem runSteps_take (l : List Step) (k : Nat) {s s1 : ServerState}
    (h : runSteps s l = some s1) :
    ∃ sk, runSteps s (l.take k) = some sk ∧ runSteps sk (l.drop k) = some s1 := by
  have happ := runSteps_append (l.take k) s (l.drop k)
  rw [List.take_append_drop] at happ
  rw [happ] at h
  rcases hk : runSteps s (l.take k) with _ | sk <;> rw [hk] at h
  · exact Option.noConfusion h
  · exact ⟨sk, rfl, by simpa using h⟩

theorem runSteps_take_le {l : List Step} {n : Nat} (m : Nat) (hmn : m ≤ n)
    {s sn : ServerState} (h : runSteps s (l.take n) = some sn) :
    ∃ sm, runSteps s (l.take m) = some sm ∧ runSteps sm ((l.take n).drop m) = some sn := by
  obtain ⟨sm, h1, h2⟩ := runSteps_take (l.take n) m h
  rw [List.take_take, Nat.min_eq_left hmn] at h1
  exact ⟨sm, h1, h2⟩

theorem step_wDequeue_idle {s s1 : ServerState} (h : step s .wDequeue = some s1) :
    s.wphase = .idle := by
  simp only [step] at h
  rcases hsw : s.wphase with _ | ⟨wid, wch, wen⟩ | ⟨wid, wacc, wpend, wen⟩ <;>
    rw [hsw] at h
  all_goals first | rfl | exact Option.noConfusion h

theorem take_succ_of_get {l : List Step} {i : Nat} {st : Step} (h : l.get? i = some st) :
    l.take (i + 1) = l.take i ++ [st] := by
  rw [List.take_succ]
  have hge : l[i]? = some st := by
    rw [← List.get?_eq_getElem?]
    exact h
  rw [hge]
  rfl

theorem runSteps_admit_succ {l : List Step} {i : Nat} {c : String} {ch : List UpChunk}
    {e : Option String} (hgi : l.get? i = some (.admitReq c ch e)) {si : ServerState}
    (hruni : runSteps initState (l.take i) = some si) :
    runSteps initState (l.take (i + 1)) = some (addToQueue si c ch e).2 := by
  rw [take_succ_of_get hgi, runSteps_append (l.take i) initState _, hruni]
  simp [runSteps, step]

/-- An admission step sits at index `i` of the run and assigns the
identifier `a` (the value of the fresh-identifier counter there). -/
def admitsAt (l : List Step) (i a : Nat) : Prop :=
  (∃ c ch e, l.get? i = some (Step.admitReq c ch e))
  ∧ ∃ si, runSteps initState (l.take i) = some si ∧ si.next_id = a

/-- The worker's dequeue step at index `k` takes request `b` (the head of
the queue there); this is the step at which `b` leaves the "queued"
state. -/
def dequeuesAt (l : List Step) (k b : Nat) : Prop :=
  l.get? k = some Step.wDequeue
  ∧ ∃ sk, runSteps initState (l.take k) = some sk
      ∧ (sk.request_queue.head?).map QueueItem.request_id = some b

/-- C2: the single worker serves admissions strictly FIFO: when request
`a` is admitted before request `b` and the worker dequeues `b` at step
`k` (the moment `b` leaves the "queued" state), request `a` has already
reached a terminal state — its Status Record is "complete" or "error" in
the state just before step `k`. -/
theorem C2_fifo_order (l : List Step) (sEnd : ServerState)
    (hrun : runSteps initState l = some sEnd)
    (i j k a b : Nat)
    (hi : admitsAt l i a) (hj : admitsAt l j b) (hij : i < j)
    (hk : dequeuesAt l k b) :
    ∃ sk r, runSteps initState (l.take k) = some sk
      ∧ alook sk.status_tracker a = some r
      ∧ (r.status = .complete ∨ r.status = .error) := by
  obtain ⟨⟨ci, chi, ei, hgi⟩, si, hruni, hnia⟩ := hi
  obtain ⟨⟨cj, chj, ej, hgj⟩, sj, hrunj, hnjb⟩ := hj
  obtain ⟨hgk, sk, hrunk, hheadb⟩ := hk
  have hwfk : WF sk := runSteps_WF WF_initState _ hrunk
  -- the head of the queue at step k is b
  rcases hqk : sk.request_queue with _ | ⟨it, restq⟩
  · rw [hqk] at hheadb
    exact absurd hheadb (by simp)
  have hitb : it.request_id = b := by
    rw [hqk] at hheadb
    simpa using hheadb
  -- a < b
  have hruni1 : runSteps initState (l.take (i + 1)) = some (addToQueue si ci chi ei).2 :=
    runSteps_admit_succ hgi hruni
  have hia1 : (addToQueue si ci chi ei).2.next_id = a + 1 := by
    rw [← hnia]
    rfl
  have hab : a < b := by
    obtain ⟨sm, hm1, hm2⟩ := runSteps_take_le (i + 1) hij hrunj
    rw [hruni1] at hm1
    obtain rfl : (addToQueue si ci chi ei).2 = sm := by simpa using hm1
    have := runSteps_next_id_mono _ hm2
    rw [hia1] at this
    rw [← hnjb]
    omega
  -- j < k, hence i + 1 ≤ k
  have hblt : b < sk.next_id := by
    rw [← hitb]
    exact hwfk.quLt it.request_id
      (by rw [hqk]; exact List.mem_map.2 ⟨it, List.mem_cons_self _ _, rfl⟩)
  have hjk : j < k := by
    by_contra hle
    push_neg at hle
    obtain ⟨sm, hm1, hm2⟩ := runSteps_take_le k hle hrunj
    rw [hrunk] at hm1
    obtain rfl : sk = sm := by simpa using hm1
    have := runSteps_next_id_mono _ hm2
    rw [hnjb] at this
    omega
  have hik : i + 1 ≤ k := by omega
  -- a appears among the identifiers enqueued during the first k steps
  have ha_enq : a ∈ enqIds initState (l.take k) := by
    obtain ⟨sm, hm1, hm2⟩ := runSteps_take_le (i + 1) hik hrunk
    rw [hruni1] at hm1
    obtain rfl : (addToQueue si ci chi ei).2 = sm := by simpa using hm1
    have hdec : l.take k = l.take (i + 1) ++ ((l.take k).drop (i + 1)) := by
      conv_lhs => rw [← List.take_append_drop (i + 1) (l.take k)]
      rw [List.take_take, Nat.min_eq_left hik]
    rw [hdec, enqIds_append (l.take (i + 1)) _ hruni1]
    refine List.mem_append.2 (Or.inl ?_)
    rw [take_succ_of_get hgi, enqIds_append (l.take i) _ hruni]
    refine List.mem_append.2 (Or.inr ?_)
    simp [enqIds, step, enqContrib, hnia]
  -- accounting: the enqueued identifiers split into dequeued ones and the queue
  have hacct := queue_acct (l.take k) hrunk
  have hinit_q : initState.request_queue.map QueueItem.request_id = [] := rfl
  rw [hinit_q, List.nil_append] at hacct
  -- sortedness of the enqueue order
  obtain ⟨_, hsorted⟩ := enq_sorted (l.take k) hrunk
  rw [← hacct] at hsorted
  rw [← hacct] at ha_enq
  -- every identifier still queued at step k is ≥ b
  have hqs_ge : ∀ y ∈ sk.request_queue.map QueueItem.request_id, b ≤ y := by
    intro y hy
    rw [hqk, List.map_cons, hitb] at hy
    rcases List.mem_cons.1 hy with hy | hy
    · exact hy.symm.le
    · have hpair := (List.pairwise_append.1 hsorted).2.1
      rw [hqk, List.map_cons, hitb] at hpair
      exact Nat.le_of_lt ((List.pairwise_cons.1 hpair).1 y hy)
  -- so a, being < b, must have been dequeued already
  have ha_deq : a ∈ deqIds initState (l.take k) := by
    rcases List.mem_append.1 ha_enq with ha | ha
    · exact ha
    · exact absurd (hqs_ge a ha) (by omega)
  -- the worker is idle just before a dequeue step, so every dequeued
  -- identifier has already been driven to a terminal state
  have hidle : sk.wphase = .idle := by
    obtain ⟨sk2, hk1, hk2⟩ := runSteps_take l k hrun
    rw [hrunk] at hk1
    obtain rfl : sk = sk2 := by simpa using hk1
    have hklen : k < l.length := List.get?_eq_some.1 hgk |>.1
    rw [List.drop_eq_get_cons hklen] at hk2
    have hgetk : l.get ⟨k, hklen⟩ = Step.wDequeue := by
      have := List.get?_eq_get hklen
      rw [hgk] at this
      exact (Option.some.inj this).symm
    rw [hgetk, runSteps] at hk2
    rcases hst : step sk .wDequeue with _ | sk3 <;> rw [hst] at hk2
    · exact Option.noConfusion hk2
    · exact step_wDequeue_idle hst
  have hwacct := worker_acct (l.take k) hrunk
  rw [hidle] at hwacct
  have hinit_w : widList initState.wphase = [] := rfl
  rw [hinit_w] at hwacct
  have hterm_eq : termIds initState (l.take k) = deqIds initState (l.take k) := by
    simpa [widList] using hwacct
  rw [← hterm_eq] at ha_deq
  obtain ⟨r, hr, ht⟩ := termIds_terminal (l.take k) WF_initState hrunk a ha_deq
  exact ⟨sk, r, hrunk, hr, ht⟩

/-- The run used to witness C2: two admissions back-to-back, the worker
serves the first to completion, then dequeues the second. -/
def c2wTrace : List Step :=
  [.admitReq "a" [] none, .admitReq "b" [] none, .wDequeue, .wStream, .wFinishOk, .wDequeue]

/-- Witness for C2: request 0 (admitted first) is "complete" at the
moment request 1 is dequeued. -/
theorem C2_fifo_order_witness :
    ∃ sEnd, runSteps initState c2wTrace = some sEnd
      ∧ ∃ sk r, runSteps initState (c2wTrace.take 5) = some sk
          ∧ alook sk.status_tracker 0 = some r
          ∧ (r.status = .complete ∨ r.status = .error) :=
  ⟨_, rfl, C2_fifo_order c2wTrace _ rfl 0 1 5 0 1
    ⟨⟨"a", [], none, rfl⟩, _, rfl, rfl⟩
    ⟨⟨"b", [], none, rfl⟩, _, rfl, rfl⟩
    (by omega)
    ⟨rfl, _, rfl, rfl⟩⟩

end QSrv
